import Mathlib

/-!
# REALSCAN access codes: a shallow embedding of `server.js`

The server keeps one JSON document, `data/codes.json`, whose `codes` field is an
ordered list of code records, and serves four operations on it: list, create
(generate), revoke and validate.

Modelling conventions.

* The persisted collection is a `List CodeRecord`, in stored order. `loadData`
  followed by `saveData` on a well-formed document reads and rewrites exactly
  this list, so a handler is a function from the collection before the request
  to a response and the collection after it.
* Timestamps are stored as ISO-8601 strings written by `toISOString`. A stored
  timestamp is modelled by the integer number of milliseconds that
  `new Date(s).getTime()` returns for it.
* The list, revoke and validate requests are served at one instant: every
  `Date.now()` and `new Date()` evaluated while one of these handlers runs reads
  the same value `now`.
* A create request reads the clock several times, and every reading is a
  parameter of its own: `now` is the `Date.now()` of the handler, from which the
  expiry is computed; `clock i j` is the `Date.now()` that the loop condition of
  `genCode` evaluates when it checks draw `i` against the record at index `j`;
  `created` is the `new Date()` stored as `createdAt`, read after `genCode` has
  returned.
* JavaScript numbers are IEEE 754 doubles: a finite number is a rational, and
  `*` and `+` round the exact result to the nearest double, ties to even, with
  overflow to the infinities (`toDouble`). The sign of zero is not modelled.
* `crypto.randomInt(0, 1000000)` is modelled by a stream `rand : Nat → Nat`
  whose `i`-th value is the `i`-th draw. The `do ... while` loop of `genCode`
  is run with a bound on the number of draws; `none` means that the loop is
  still running after that many draws.
* `loadData` and `saveData` themselves are modelled on the content of the file
  up to the layout of its text: unparseable text, or the JSON value it parses
  to (`PersistedState`).
-/

namespace MG8

/-! ## Data model -/

/-- One element of `data.codes`. -/
structure CodeRecord where
  code : String
  note : String
  createdAt : Int
  expiresAt : Int
  revoked : Bool
deriving DecidableEq, Repr

/-- The JavaScript expression `s || ''` for a string `s`. -/
def orEmpty (s : String) : String :=
  if s = "" then "" else s

/-! ## Status of a record -/

/-- The function `codeStatus(entry)`, with `Date.now()` passed as `now`. -/
def codeStatus (now : Int) (entry : CodeRecord) : String :=
  let exp := entry.expiresAt
  if entry.revoked then "revoked"
  else if now ≥ exp then "expired"
  else "active"

/-! ## Validation -/

/-- White space and line terminators, the characters removed by
`String.prototype.trim`. -/
def isJSWhiteSpace (c : Char) : Bool :=
  let n := c.toNat
  n == 0x9 || n == 0xA || n == 0xB || n == 0xC || n == 0xD || n == 0x20 ||
  n == 0xA0 || n == 0x1680 || (0x2000 ≤ n && n ≤ 0x200A) || n == 0x2028 ||
  n == 0x2029 || n == 0x202F || n == 0x205F || n == 0x3000 || n == 0xFEFF

/-- The method `String.prototype.trim`. -/
def trim (s : String) : String :=
  String.mk ((s.data.dropWhile isJSWhiteSpace).reverse.dropWhile isJSWhiteSpace).reverse

/-- The JSON body sent by `GET /api/validate` together with its HTTP status.
A key that the handler leaves out of the object is `none`. -/
structure ValidateResponse where
  status : Nat
  ok : Bool
  reason : Option String
  code : Option String
  note : Option String
  expiresAt : Option Int
  now : Option Int
deriving DecidableEq, Repr

/-- The handler of `GET /api/validate`. `query` is `req.query.code`, absent or a
string; `codes` is `loadData().codes`. The handler writes nothing. -/
def validate (codes : List CodeRecord) (now : Int) (query : Option String) :
    ValidateResponse :=
  let code := trim (query.getD "")
  if code = "" then
    ⟨400, false, some "Tiada kod", none, none, none, none⟩
  else
    match codes.find? (fun c => c.code == code) with
    | none => ⟨200, false, some "Kod tidak wujud", none, none, none, none⟩
    | some entry =>
      let status := codeStatus now entry
      if status ≠ "active" then
        ⟨200, false, some status, none, some (orEmpty entry.note), some entry.expiresAt,
          some now⟩
      else
        ⟨200, true, none, some entry.code, some (orEmpty entry.note), some entry.expiresAt,
          some now⟩

/-! ## JavaScript values read from a request body -/

/-- A JavaScript number: `NaN`, the two infinities, or a finite value. -/
inductive JSNumber where
  | nan
  | posInf
  | negInf
  | fin (q : ℚ)
deriving DecidableEq

/-! ## Double-precision arithmetic -/

/-- The power of two `2 ^ k`, for an integer exponent. -/
def pow2 (k : Int) : ℚ :=
  if 0 ≤ k then ((2 ^ k.toNat : Nat) : ℚ) else 1 / ((2 ^ (-k).toNat : Nat) : ℚ)

/-- Auxiliary to `log2`: the number of halvings that take `n` below 2, at most
`fuel` of them. -/
def log2Fuel : Nat → Nat → Nat
  | 0, _ => 0
  | fuel + 1, n => if 2 ≤ n then log2Fuel fuel (n / 2) + 1 else 0

/-- The position of the leading bit of `n`: the greatest `k` with `2 ^ k ≤ n`,
for `n ≥ 1`. -/
def log2 (n : Nat) : Nat :=
  log2Fuel n n

/-- The binary exponent of a positive rational `q`: the greatest `e` with
`2 ^ e ≤ q`. -/
def floorLog2 (q : ℚ) : Int :=
  let d : Int := (log2 q.num.natAbs : Int) - (log2 q.den : Int)
  if pow2 d ≤ q then d else d - 1

/-- The integer nearest to `x`, the even one of the two when `x` lies half-way
between them. -/
def roundHalfEven (x : ℚ) : Int :=
  let f := ⌊x⌋
  if x - f < 1 / 2 then f
  else if 1 / 2 < x - f then f + 1
  else if f % 2 = 0 then f else f + 1

/-- The double nearest to a positive rational `q`, ties to even, with the
exponent unbounded above: `q` is rounded to a multiple of `2 ^ p`, where `p` is
52 below the binary exponent of `q` (a significand of 53 bits) and not below
`-1074` (the subnormal numbers). -/
def nearestPos (q : ℚ) : ℚ :=
  let p := max (floorLog2 q - 52) (-1074)
  roundHalfEven (q / pow2 p) * pow2 p

/-- The double nearest to a rational `q`, with the exponent unbounded above. -/
def nearest (q : ℚ) : ℚ :=
  if 0 < q then nearestPos q else if q < 0 then -nearestPos (-q) else 0

namespace JSNumber

/-- Sign of a number, `none` for `NaN`. -/
def sign : JSNumber → Option Int
  | nan => none
  | posInf => some 1
  | negInf => some (-1)
  | fin q => some (if 0 < q then 1 else if q < 0 then -1 else 0)

/-- The double that an exact rational result is rounded to: the nearest
double, or an infinity when that is `2 ^ 1024` or more in magnitude. -/
def toDouble (q : ℚ) : JSNumber :=
  if pow2 1024 ≤ nearest q then posInf
  else if nearest q ≤ -pow2 1024 then negInf
  else fin (nearest q)

/-- The operator `*`. -/
def mul (x y : JSNumber) : JSNumber :=
  match x, y with
  | fin a, fin b => toDouble (a * b)
  | _, _ =>
    match x.sign, y.sign with
    | some s, some t => if 0 < s * t then posInf else if s * t < 0 then negInf else nan
    | _, _ => nan

/-- The operator `+`. -/
def add (x y : JSNumber) : JSNumber :=
  match x, y with
  | fin a, fin b => toDouble (a + b)
  | nan, _ => nan
  | _, nan => nan
  | posInf, negInf => nan
  | negInf, posInf => nan
  | posInf, _ => posInf
  | _, posInf => posInf
  | negInf, _ => negInf
  | _, negInf => negInf

/-- Truthiness of a number: every number except `0` and `NaN`. -/
def truthy : JSNumber → Bool
  | nan => false
  | fin q => decide (q ≠ 0)
  | _ => true

/-- The comparison `x <= 0`. -/
def leZero : JSNumber → Bool
  | nan => false
  | posInf => false
  | negInf => true
  | fin q => decide (q ≤ 0)

end JSNumber

/-- The abstract operation `ToIntegerOrInfinity` on a finite value: the
fractional part is dropped. -/
def toIntegerOrInfinity (q : ℚ) : Int :=
  if 0 ≤ q then ⌊q⌋ else ⌈q⌉

/-- The time value of `new Date(t)` (abstract operation `TimeClip`): `none` is
an invalid date. -/
def timeClip : JSNumber → Option Int
  | JSNumber.fin q => if 8640000000000000 < |q| then none else some (toIntegerOrInfinity q)
  | _ => none

/-- The value of `note` in a request body, as far as `(note || '').toString()`
observes it: absent, a string, or another JSON value given by its truthiness
and by what its `toString()` returns. -/
inductive JSNote where
  | undefined
  | str (s : String)
  | other (truthy : Bool) (text : String)
deriving DecidableEq

/-- The expression `(note || '').toString()`. -/
def noteText : JSNote → String
  | JSNote.undefined => ""
  | JSNote.str s => orEmpty s
  | JSNote.other true text => text
  | JSNote.other false _ => ""

/-! ## Code generation -/

/-- The method `String.prototype.padStart` with a one-character filler. -/
def padStart (s : String) (targetLength : Nat) (fill : Char) : String :=
  String.mk (List.replicate (targetLength - s.length) fill ++ s.data)

/-- The candidate built from one draw `n` of `crypto.randomInt(0, 1000000)`:
`n.toString().padStart(6, '0')`. -/
def candidate (n : Nat) : String :=
  padStart (toString n) 6 '0'

/-- The callback of the loop condition applied to the records from index `j`
on: `c.code === code && !c.revoked && Date.now() < exp` holds of one of them.
`readings j` is the value of `Date.now()` when the record at index `j` is
examined. -/
def collidesFrom (readings : Nat → Int) (code : String) : List CodeRecord → Nat → Bool
  | [], _ => false
  | c :: cs, j =>
    (c.code == code && !c.revoked && decide (readings j < c.expiresAt)) ||
      collidesFrom readings code cs (j + 1)

/-- The loop condition of `genCode`:
`existing.some(c => c.code === code && !c.revoked && Date.now() < exp)`. -/
def collides (existing : List CodeRecord) (readings : Nat → Int) (code : String) : Bool :=
  collidesFrom readings code existing 0

/-- The `do ... while` loop of `genCode`, started at draw number `i` and allowed
`fuel` more draws. The loop condition of draw `i` reads the clock as
`clock i`. -/
def genCodeLoop (existing : List CodeRecord) (clock : Nat → Nat → Int) (rand : Nat → Nat) :
    Nat → Nat → Option String
  | 0, _ => none
  | fuel + 1, i =>
    let code := candidate (rand i)
    if collides existing (clock i) code then genCodeLoop existing clock rand fuel (i + 1)
    else some code

/-- The function `genCode(existing)`. -/
def genCode (existing : List CodeRecord) (clock : Nat → Nat → Int) (rand : Nat → Nat)
    (fuel : Nat) : Option String :=
  genCodeLoop existing clock rand fuel 0

/-! ## Creating a code -/

/-- What a handler did with a request: it sent a response, or an exception left
the handler. -/
inductive Outcome (ρ : Type) where
  | sent (response : ρ)
  | thrown (error : String)
deriving DecidableEq

/-- The body of `POST /api/codes` after `Number(duration)`. -/
structure CreateBody where
  duration : JSNumber
  unit : String
  note : JSNote

/-- The JSON body sent by `POST /api/codes` together with its HTTP status. -/
structure CreateResponse where
  status : Nat
  ok : Bool
  error : Option String
  code : Option String
  expiresAt : Option Int
  link : Option String
deriving DecidableEq, Repr

/-- The constant `ms` of the handler of `POST /api/codes`:
`unit === 'minutes' ? durNum * 60 * 1000 : durNum * 60 * 60 * 1000`. -/
def durationMs (durNum : JSNumber) (unit : String) : JSNumber :=
  if unit = "minutes" then (durNum.mul (.fin 60)).mul (.fin 1000)
  else ((durNum.mul (.fin 60)).mul (.fin 60)).mul (.fin 1000)

/-- The handler of `POST /api/codes`: the outcome and the collection that is on
disk afterwards. `now` is the `Date.now()` of the handler, `clock` gives the
readings of the loop condition of `genCode`, `created` is the `new Date()` of
`createdAt`. `none` means that `genCode` is still drawing after `fuel` draws.
The link is the code appended to the scanner path, `encodeURIComponent` being
the identity on decimal digits. -/
def generate (codes : List CodeRecord) (now : Int) (clock : Nat → Nat → Int) (created : Int)
    (rand : Nat → Nat) (fuel : Nat) (body : CreateBody) :
    Option (Outcome CreateResponse × List CodeRecord) :=
  let durNum := body.duration
  if !durNum.truthy || durNum.leZero then
    some (.sent ⟨400, false, some "Duration mesti nombor > 0", none, none, none⟩, codes)
  else if !(["minutes", "hours"].contains body.unit) then
    some (.sent ⟨400, false, some "Unit mesti minutes/hours", none, none, none⟩, codes)
  else
    let ms := durationMs durNum body.unit
    match timeClip ((JSNumber.fin now).add ms) with
    | none => some (.thrown "RangeError: Invalid time value", codes)
    | some expiresAt =>
      match genCode codes clock rand fuel with
      | none => none
      | some code =>
        let record : CodeRecord :=
          { code := code, note := noteText body.note, createdAt := created,
            expiresAt := expiresAt, revoked := false }
        some (.sent ⟨200, true, none, some code, some expiresAt,
          some ("/scanner.html?code=" ++ code)⟩, codes ++ [record])

/-! ## Revoking a code -/

/-- The method `Array.prototype.findIndex`; `none` stands for `-1`. -/
def findIndex {α : Type} (p : α → Bool) : List α → Option Nat
  | [] => none
  | a :: as => if p a then some 0 else (findIndex p as).map (· + 1)

/-- The assignment `data.codes[idx].revoked = true`. -/
def setRevoked : List CodeRecord → Nat → List CodeRecord
  | [], _ => []
  | c :: cs, 0 => { c with revoked := true } :: cs
  | c :: cs, idx + 1 => c :: setRevoked cs idx

/-- The JSON body sent by `DELETE /api/codes/:code` together with its HTTP
status. -/
structure RevokeResponse where
  status : Nat
  ok : Bool
  error : Option String
deriving DecidableEq, Repr

/-- The handler of `DELETE /api/codes/:code`: the response and the collection
that is on disk afterwards. -/
def revoke (codes : List CodeRecord) (code : String) :
    RevokeResponse × List CodeRecord :=
  match findIndex (fun c => c.code == code) codes with
  | none => (⟨404, false, some "Code tidak dijumpai"⟩, codes)
  | some idx => (⟨200, true, none⟩, setRevoked codes idx)

/-! ## Remaining time and the list of codes -/

/-- The function `remainingSeconds(entry)`, with `Date.now()` passed as `now`. -/
def remainingSeconds (now : Int) (entry : CodeRecord) : Int :=
  let exp := entry.expiresAt
  let diff := max 0 ⌊((exp - now : Int) : ℚ) / 1000⌋
  diff

/-- One element of the array sent by `GET /api/codes`. -/
structure ListEntry where
  code : String
  note : String
  createdAt : Int
  expiresAt : Int
  status : String
  remainingSec : Int
deriving DecidableEq, Repr

/-- The order of the comparator
`(a, b) => new Date(b.createdAt) - new Date(a.createdAt)`: the comparator does
not ask for `b` before `a` when `b` was not created after `a`. -/
def newestFirst (a b : CodeRecord) : Prop :=
  b.createdAt ≤ a.createdAt

instance : DecidableRel newestFirst :=
  fun a b => inferInstanceAs (Decidable (b.createdAt ≤ a.createdAt))

instance : IsTotal CodeRecord newestFirst :=
  ⟨fun a b => Int.le_total b.createdAt a.createdAt⟩

instance : IsTrans CodeRecord newestFirst :=
  ⟨fun _ _ _ hab hbc => Int.le_trans hbc hab⟩

/-- The handler of `GET /api/codes`: the array `codes` of its response. The
handler sorts a copy of `data.codes` and writes nothing. `Array.prototype.sort`
is stable and the comparator is a consistent ordering, so the sorted copy is
the stable sort of the collection, computed here by insertion. -/
def list (codes : List CodeRecord) (now : Int) : List ListEntry :=
  (codes.insertionSort newestFirst).map (fun c =>
    { code := c.code, note := orEmpty c.note, createdAt := c.createdAt,
      expiresAt := c.expiresAt, status := codeStatus now c,
      remainingSec := remainingSeconds now c })

/-! ## Requests and what they leave on disk -/

/-- A request to one of the four routes, with the clock reading and the random
draws that serving it consumes. -/
inductive Request where
  | list (now : Int)
  | create (now : Int) (clock : Nat → Nat → Int) (created : Int) (rand : Nat → Nat)
      (fuel : Nat) (body : CreateBody)
  | revoke (code : String)
  | validate (now : Int) (query : Option String)

/-- The collection on disk after a request has been served. Only the handlers
of create and revoke call `saveData`. `none` means that `genCode` is still
drawing after `fuel` draws. -/
def serve (codes : List CodeRecord) : Request → Option (List CodeRecord)
  | .list _ => some codes
  | .create now clock created rand fuel body =>
    (generate codes now clock created rand fuel body).map Prod.snd
  | .revoke code => some (revoke codes code).2
  | .validate _ _ => some codes

/-- The collection on disk after a sequence of requests, served one after
another. -/
def serveAll : List CodeRecord → List Request → Option (List CodeRecord)
  | codes, [] => some codes
  | codes, req :: rest =>
    match serve codes req with
    | none => none
    | some codes2 => serveAll codes2 rest

/-- One create request: the clock readings, the random draws and the body. -/
structure CreateCall where
  now : Int
  clock : Nat → Nat → Int
  created : Int
  rand : Nat → Nat
  fuel : Nat
  body : CreateBody

/-- A sequence of create requests served one after another, every one of them
answered `ok: true`: the code and `expiresAt` of each response, in order, and
the collection left on disk. `none` when some request is not answered
`ok: true`. -/
def generateAll : List CodeRecord → List CreateCall →
    Option (List (String × Int) × List CodeRecord)
  | codes, [] => some ([], codes)
  | codes, call :: rest =>
    match generate codes call.now call.clock call.created call.rand call.fuel call.body with
    | some (.sent ⟨_, true, _, some code, some expiresAt, _⟩, codes2) =>
      match generateAll codes2 rest with
      | some (results, final) => some ((code, expiresAt) :: results, final)
      | none => none
    | _ => none

/-! ## The store -/

/-- A number as `JSON.parse` returns it: a finite double, the negative zero
(from the text `-0`), or an infinity (from a literal beyond the range of
doubles, such as `1e999`). -/
inductive JSONNumber where
  | finite (q : ℚ)
  | negZero
  | posInf
  | negInf
  deriving DecidableEq

/-- The number that `JSON.parse` returns for a number literal with the given
sign and the given magnitude: the nearest double, an infinity when the
magnitude is beyond the range of doubles, a zero with the sign of the literal
when the magnitude rounds to zero. -/
def JSONNumber.ofLiteral (minus : Bool) (magnitude : ℚ) : JSONNumber :=
  match JSNumber.toDouble magnitude with
  | .fin d =>
    if d = 0 then (if minus then .negZero else .finite 0)
    else .finite (if minus then -d else d)
  | _ => if minus then .negInf else .posInf

mutual

/-- A JSON value, as `JSON.parse` returns it. -/
inductive JSONValue where
  | null
  | bool (b : Bool)
  | num (x : JSONNumber)
  | str (s : String)
  | arr (items : JSONItems)
  | obj (fields : JSONFields)

/-- The elements of an array, in order. -/
inductive JSONItems where
  | nil
  | cons (head : JSONValue) (tail : JSONItems)

/-- The properties of an object, in order. Where a key occurs more than once,
the last occurrence counts, as for `JSON.parse`. -/
inductive JSONFields where
  | nil
  | cons (key : String) (value : JSONValue) (tail : JSONFields)

end

namespace JSONValue

/-- Truthiness of a value. -/
def truthy : JSONValue → Bool
  | null => false
  | bool b => b
  | num (.finite q) => decide (q ≠ 0)
  | num .negZero => false
  | num _ => true
  | str s => decide (s ≠ "")
  | arr _ => true
  | obj _ => true

/-- The property read `o[key]` on the properties of an object; `none` is
`undefined`. -/
def getField : JSONFields → String → Option JSONValue
  | .nil, _ => none
  | .cons k v rest, key =>
    match getField rest key with
    | some w => some w
    | none => if k = key then some v else none

/-- The properties of an object with every value stored under `key` replaced by
`value`. -/
def replaceField : JSONFields → String → JSONValue → JSONFields
  | .nil, _, _ => .nil
  | .cons k v rest, key, value =>
    if k = key then .cons k value (replaceField rest key value)
    else .cons k v (replaceField rest key value)

/-- The properties of an object followed by one more property. -/
def appendField : JSONFields → String → JSONValue → JSONFields
  | .nil, key, value => .cons key value .nil
  | .cons k v rest, key, value => .cons k v (appendField rest key value)

/-- The assignment `o[key] = value` on the properties of an object: an existing
key keeps its place, a new key goes last. -/
def setField (fields : JSONFields) (key : String) (value : JSONValue) : JSONFields :=
  match getField fields key with
  | some _ => replaceField fields key value
  | none => appendField fields key value

end JSONValue

mutual

/-- The value that the text written by `JSON.stringify(v, null, 2)` parses to:
`JSON.stringify` writes an infinity as `null` and the negative zero as `0`. -/
def JSONValue.written : JSONValue → JSONValue
  | .null => .null
  | .bool b => .bool b
  | .num (.finite q) => .num (.finite q)
  | .num .negZero => .num (.finite 0)
  | .num .posInf => .null
  | .num .negInf => .null
  | .str s => .str s
  | .arr items => .arr items.written
  | .obj fields => .obj fields.written

/-- The elements of an array as `JSON.stringify` writes them. -/
def JSONItems.written : JSONItems → JSONItems
  | .nil => .nil
  | .cons head tail => .cons head.written tail.written

/-- The properties of an object as `JSON.stringify` writes them. -/
def JSONFields.written : JSONFields → JSONFields
  | .nil => .nil
  | .cons key value tail => .cons key value.written tail.written

end

mutual

/-- No number inside the value is an infinity or the negative zero. -/
def JSONValue.plain : JSONValue → Bool
  | .null => true
  | .bool _ => true
  | .num (.finite _) => true
  | .num _ => false
  | .str _ => true
  | .arr items => items.plain
  | .obj fields => fields.plain

/-- No number inside the elements is an infinity or the negative zero. -/
def JSONItems.plain : JSONItems → Bool
  | .nil => true
  | .cons head tail => head.plain && tail.plain

/-- No number inside the properties is an infinity or the negative zero. -/
def JSONFields.plain : JSONFields → Bool
  | .nil => true
  | .cons _ value tail => value.plain && tail.plain

end

/-- The content of `data/codes.json`, up to the layout of the text: text that
`JSON.parse` rejects, or the value it parses to. -/
inductive PersistedState where
  | unparseable (text : String)
  | document (json : JSONValue)

/-- The function `loadData()`. `JSON.parse` throws on unparseable text and
reading `json.codes` throws on `null`; both are caught and give
`{ codes: [] }`. On an object whose `codes` is missing or falsy the field is set
to `[]`. On a boolean, a number or a string the assignment `json.codes = []` has
no effect (the script is not in strict mode), and on an array it adds a
property that `JSON.stringify` does not write, so these values are returned as
they are. -/
def loadData : PersistedState → JSONValue
  | .unparseable _ => .obj (.cons "codes" (.arr .nil) .nil)
  | .document .null => .obj (.cons "codes" (.arr .nil) .nil)
  | .document (.bool b) => .bool b
  | .document (.num x) => .num x
  | .document (.str s) => .str s
  | .document (.arr items) => .arr items
  | .document (.obj fields) =>
    match JSONValue.getField fields "codes" with
    | some v =>
      if v.truthy then .obj fields
      else .obj (JSONValue.setField fields "codes" (.arr .nil))
    | none => .obj (JSONValue.setField fields "codes" (.arr .nil))

/-- The function `saveData(data)`: the file holds the text of
`JSON.stringify(data, null, 2)`. -/
def saveData (data : JSONValue) : PersistedState :=
  .document data.written

/-! ## Fixed-width decimal digits -/

/-- Auxiliary to the proofs about `candidate`: the `k` lowest decimal digits of
`n`, most significant first. -/
def fixedDigits : Nat → Nat → List Char
  | 0, _ => []
  | k + 1, n => fixedDigits k (n / 10) ++ [Nat.digitChar (n % 10)]

/-- The number that a list of decimal digits denotes. -/
def decimalValue (cs : List Char) : Nat :=
  cs.foldl (fun acc c => 10 * acc + (c.toNat - '0'.toNat)) 0

/-! ## The invariant of the collection -/

/-- The invariant "at most one active record per code value" at instant `t`: no
two records at distinct positions of the collection have the same code and are
both active, where a record is active when it is not revoked and
`t < expiresAt`. -/
def AtMostOneActive (t : Int) (codes : List CodeRecord) : Prop :=
  codes.Pairwise (fun a b => a.code = b.code →
    ¬ ((a.revoked = false ∧ t < a.expiresAt) ∧ (b.revoked = false ∧ t < b.expiresAt)))

instance (t : Int) (codes : List CodeRecord) : Decidable (AtMostOneActive t codes) := by
  unfold AtMostOneActive
  infer_instance

/-- What a later collection may hold in the place of record `r`: a record with
the same code, note, `createdAt` and `expiresAt`, revoked if `r` is. -/
def Keeps (r r2 : CodeRecord) : Prop :=
  r2.code = r.code ∧ r2.note = r.note ∧ r2.createdAt = r.createdAt ∧
    r2.expiresAt = r.expiresAt ∧ (r.revoked = true → r2.revoked = true)

/-- The collection `s2` extends `s`: at every index of `s` it holds a record
kept for the record that `s` holds there. -/
def Extends (s s2 : List CodeRecord) : Prop :=
  ∀ (i : Nat) (r : CodeRecord), s[i]? = some r → ∃ r2, s2[i]? = some r2 ∧ Keeps r r2

/-! ## Theorems -/

theorem orEmpty_eq (s : String) : orEmpty s = s := by
  unfold orEmpty
  split
  · next h => exact h.symm
  · rfl

theorem find?_code_split (code : String) (pre : List CodeRecord) (entry : CodeRecord)
    (post : List CodeRecord) (hpre : ∀ c ∈ pre, c.code ≠ code) (hentry : entry.code = code) :
    (pre ++ entry :: post).find? (fun c => c.code == code) = some entry := by
  induction pre with
  | nil => simp [List.find?, hentry]
  | cons c cs ih =>
    have hc : c.code ≠ code := hpre c (List.mem_cons_self c cs)
    have hcs : ∀ d ∈ cs, d.code ≠ code := fun d hd => hpre d (List.mem_cons_of_mem c hd)
    have hb : (c.code == code) = false := by simpa using hc
    simp [List.find?, hb, ih hcs]

theorem find?_code_none (code : String) (codes : List CodeRecord)
    (h : ∀ c ∈ codes, c.code ≠ code) :
    codes.find? (fun c => c.code == code) = none := by
  simp only [List.find?_eq_none]
  intro c hc
  simpa using h c hc

theorem codeStatus_cases (now : Int) (entry : CodeRecord) :
    codeStatus now entry = "revoked" ∨ codeStatus now entry = "expired" ∨
      codeStatus now entry = "active" := by
  unfold codeStatus
  by_cases hr : entry.revoked = true
  · simp [hr]
  · by_cases he : now ≥ entry.expiresAt
    · simp [hr, he]
    · simp [hr, he]

/-- C1: `codeStatus` returns `revoked` when the revoked flag is set, whatever the
expiry; otherwise `expired` when `now ≥ expiresAt`; otherwise `active`. A record
that is not revoked and whose `expiresAt` equals `now` is `expired`, not
`active`. -/
theorem codeStatus_spec (now : Int) (entry : CodeRecord) :
    (entry.revoked = true → codeStatus now entry = "revoked") ∧
    (entry.revoked = false → now ≥ entry.expiresAt → codeStatus now entry = "expired") ∧
    (entry.revoked = false → now < entry.expiresAt → codeStatus now entry = "active") ∧
    (entry.revoked = false → entry.expiresAt = now →
      codeStatus now entry = "expired" ∧ codeStatus now entry ≠ "active") := by
  refine ⟨?_, ?_, ?_, ?_⟩
  · intro hr
    simp [codeStatus, hr]
  · intro hr he
    simp [codeStatus, hr, he]
  · intro hr he
    simp [codeStatus, hr, not_le.mpr he]
  · intro hr he
    have h : codeStatus now entry = "expired" := by
      simp [codeStatus, hr, he]
    rw [h]
    exact ⟨rfl, by decide⟩

/-- C1 at a record that expires at instant `5`: revoked at `9`, expired at `5`,
active at `4`. -/
theorem codeStatus_spec_witness :
    codeStatus 9 ⟨"000001", "", 0, 5, true⟩ = "revoked" ∧
    codeStatus 5 ⟨"000001", "", 0, 5, false⟩ = "expired" ∧
    codeStatus 4 ⟨"000001", "", 0, 5, false⟩ = "active" ∧
    codeStatus 5 ⟨"000001", "", 0, 5, false⟩ ≠ "active" :=
  ⟨(codeStatus_spec 9 ⟨"000001", "", 0, 5, true⟩).1 rfl,
   (codeStatus_spec 5 ⟨"000001", "", 0, 5, false⟩).2.1 rfl (by decide),
   (codeStatus_spec 4 ⟨"000001", "", 0, 5, false⟩).2.2.1 rfl (by decide),
   ((codeStatus_spec 5 ⟨"000001", "", 0, 5, false⟩).2.2.2 rfl rfl).2⟩

/-- C2: `validate` answers 400 when the presented code is empty after trimming;
code-not-found when no record has the trimmed code; otherwise it takes the first
record in stored order whose code equals the trimmed input and answers
`ok: true` with `code, note, expiresAt, now` when that record is active, and
`ok: false` with the status (`expired` or `revoked`) as reason and
`expiresAt, note, now` when it is not. -/
theorem validate_spec (codes : List CodeRecord) (now : Int) (query : Option String) :
    (trim (query.getD "") = "" →
      validate codes now query = ⟨400, false, some "Tiada kod", none, none, none, none⟩) ∧
    (trim (query.getD "") ≠ "" → (∀ c ∈ codes, c.code ≠ trim (query.getD "")) →
      validate codes now query =
        ⟨200, false, some "Kod tidak wujud", none, none, none, none⟩) ∧
    (trim (query.getD "") ≠ "" →
      ∀ (pre : List CodeRecord) (entry : CodeRecord) (post : List CodeRecord),
        codes = pre ++ entry :: post → (∀ c ∈ pre, c.code ≠ trim (query.getD "")) →
        entry.code = trim (query.getD "") →
        (codeStatus now entry = "active" →
          validate codes now query =
            ⟨200, true, none, some (trim (query.getD "")), some entry.note,
              some entry.expiresAt, some now⟩) ∧
        (codeStatus now entry ≠ "active" →
          validate codes now query =
            ⟨200, false, some (codeStatus now entry), none, some entry.note,
              some entry.expiresAt, some now⟩ ∧
          (codeStatus now entry = "expired" ∨ codeStatus now entry = "revoked"))) := by
  refine ⟨?_, ?_, ?_⟩
  · intro he
    simp [validate, he]
  · intro hne hnone
    simp [validate, hne, find?_code_none _ _ hnone]
  · intro hne pre entry post hsplit hpre hentry
    have hfind := find?_code_split _ pre entry post hpre hentry
    constructor
    · intro hact
      simp [validate, hne, hsplit, hfind, hact, orEmpty_eq, hentry]
    · intro hact
      refine ⟨?_, ?_⟩
      · simp [validate, hne, hsplit, hfind, hact, orEmpty_eq]
      · rcases codeStatus_cases now entry with h | h | h
        · exact Or.inr h
        · exact Or.inl h
        · exact absurd h hact

/-- C2 on a two-record collection holding the code `000001` twice: the first
record, which is revoked, decides the answer. -/
theorem validate_spec_witness :
    validate [⟨"000001", "a", 0, 5, true⟩, ⟨"000001", "b", 0, 9, false⟩] 4 (some " 000001 ")
      = ⟨200, false, some "revoked", none, some "a", some 5, some 4⟩ ∧
    validate [⟨"000001", "a", 0, 5, true⟩] 4 (some "  ")
      = ⟨400, false, some "Tiada kod", none, none, none, none⟩ :=
  ⟨(((validate_spec [⟨"000001", "a", 0, 5, true⟩, ⟨"000001", "b", 0, 9, false⟩] 4
      (some " 000001 ")).2.2 (by decide) [] ⟨"000001", "a", 0, 5, true⟩
      [⟨"000001", "b", 0, 9, false⟩] rfl (by simp) (by decide)).2 (by decide)).1,
   (validate_spec [⟨"000001", "a", 0, 5, true⟩] 4 (some "  ")).1 (by decide)⟩

/-! ### Code generation -/

theorem collidesFrom_iff (readings : Nat → Int) (code : String) (l : List CodeRecord) :
    ∀ j0 : Nat, collidesFrom readings code l j0 = true ↔
      ∃ j c, l[j]? = some c ∧ c.code = code ∧ c.revoked = false ∧
        readings (j0 + j) < c.expiresAt := by
  induction l with
  | nil =>
    intro j0
    simp [collidesFrom]
  | cons a as ih =>
    intro j0
    simp only [collidesFrom, Bool.or_eq_true, Bool.and_eq_true, beq_iff_eq,
      Bool.not_eq_true', decide_eq_true_eq, ih (j0 + 1)]
    constructor
    · rintro (⟨⟨h1, h2⟩, h3⟩ | ⟨j, c, hj, h1, h2, h3⟩)
      · exact ⟨0, a, List.getElem?_cons_zero, h1, h2, h3⟩
      · refine ⟨j + 1, c, by simpa using hj, h1, h2, ?_⟩
        have e : j0 + (j + 1) = j0 + 1 + j := by omega
        rw [e]
        exact h3
    · rintro ⟨j, c, hj, h1, h2, h3⟩
      cases j with
      | zero =>
        simp only [List.getElem?_cons_zero, Option.some.injEq] at hj
        subst hj
        exact Or.inl ⟨⟨h1, h2⟩, h3⟩
      | succ j =>
        refine Or.inr ⟨j, c, by simpa using hj, h1, h2, ?_⟩
        have e : j0 + 1 + j = j0 + (j + 1) := by omega
        rw [e]
        exact h3

theorem collides_iff (existing : List CodeRecord) (readings : Nat → Int) (code : String) :
    collides existing readings code = true ↔
      ∃ j c, existing[j]? = some c ∧ c.code = code ∧ c.revoked = false ∧
        readings j < c.expiresAt := by
  unfold collides
  rw [collidesFrom_iff]
  simp only [Nat.zero_add]

theorem collides_eq_false_iff (existing : List CodeRecord) (readings : Nat → Int)
    (code : String) :
    collides existing readings code = false ↔
      ∀ j c, existing[j]? = some c → c.code = code →
        c.revoked = true ∨ c.expiresAt ≤ readings j := by
  constructor
  · intro hcol j c hj hcode
    cases hrev : c.revoked with
    | true => exact Or.inl rfl
    | false =>
      right
      by_contra hlt
      have : collides existing readings code = true :=
        (collides_iff _ _ _).mpr ⟨j, c, hj, hcode, hrev, not_le.mp hlt⟩
      rw [this] at hcol
      cases hcol
  · intro hall
    cases hcol : collides existing readings code with
    | false => rfl
    | true =>
      obtain ⟨j, c, hj, hcode, hrev, hlt⟩ := (collides_iff _ _ _).mp hcol
      rcases hall j c hj hcode with h | h
      · rw [h] at hrev
        cases hrev
      · omega

theorem genCodeLoop_eq_some (existing : List CodeRecord) (clock : Nat → Nat → Int)
    (rand : Nat → Nat) (code : String) (fuel i : Nat) :
    genCodeLoop existing clock rand fuel i = some code ↔
      ∃ k, i ≤ k ∧ k < i + fuel ∧ code = candidate (rand k) ∧
        collides existing (clock k) (candidate (rand k)) = false ∧
        ∀ j, i ≤ j → j < k → collides existing (clock j) (candidate (rand j)) = true := by
  induction fuel generalizing i with
  | zero =>
    simp only [genCodeLoop, Nat.add_zero]
    constructor
    · intro h
      cases h
    · rintro ⟨k, h1, h2, _⟩
      omega
  | succ fuel ih =>
    simp only [genCodeLoop]
    by_cases hc : collides existing (clock i) (candidate (rand i)) = true
    · rw [if_pos hc, ih (i + 1)]
      constructor
      · rintro ⟨k, h1, h2, h3, h4, h5⟩
        refine ⟨k, by omega, by omega, h3, h4, ?_⟩
        intro j hj1 hj2
        by_cases hji : j = i
        · rw [hji]
          exact hc
        · exact h5 j (by omega) hj2
      · rintro ⟨k, h1, h2, h3, h4, h5⟩
        have hki : k ≠ i := by
          intro hki
          rw [hki, hc] at h4
          cases h4
        exact ⟨k, by omega, by omega, h3, h4, fun j hj1 hj2 => h5 j (by omega) hj2⟩
    · rw [if_neg hc]
      have hc2 : collides existing (clock i) (candidate (rand i)) = false := by
        simpa using hc
      constructor
      · intro h
        refine ⟨i, le_refl i, by omega, ?_, hc2, ?_⟩
        · exact (Option.some.inj h).symm
        · intro j hj1 hj2
          omega
      · rintro ⟨k, h1, h2, h3, h4, h5⟩
        have hki : k = i := by
          by_contra hne
          have := h5 i (le_refl i) (by omega)
          exact hc this
        rw [h3, hki]

theorem genCode_eq_some (existing : List CodeRecord) (clock : Nat → Nat → Int)
    (rand : Nat → Nat) (fuel : Nat) (code : String) :
    genCode existing clock rand fuel = some code ↔
      ∃ k, k < fuel ∧ code = candidate (rand k) ∧
        collides existing (clock k) (candidate (rand k)) = false ∧
        ∀ j, j < k → collides existing (clock j) (candidate (rand j)) = true := by
  unfold genCode
  rw [genCodeLoop_eq_some]
  constructor
  · rintro ⟨k, _, h2, h3, h4, h5⟩
    exact ⟨k, by omega, h3, h4, fun j hj => h5 j (Nat.zero_le j) hj⟩
  · rintro ⟨k, h2, h3, h4, h5⟩
    exact ⟨k, Nat.zero_le k, by omega, h3, h4, fun j _ hj => h5 j hj⟩

theorem genCode_not_collides (existing : List CodeRecord) (clock : Nat → Nat → Int)
    (rand : Nat → Nat) (fuel : Nat) (code : String)
    (h : genCode existing clock rand fuel = some code) :
    ∃ k, k < fuel ∧ collides existing (clock k) code = false := by
  obtain ⟨k, hk, h3, h4, _⟩ := (genCode_eq_some existing clock rand fuel code).mp h
  refine ⟨k, hk, ?_⟩
  rw [h3]
  exact h4

theorem genCode_not_active (existing : List CodeRecord) (clock : Nat → Nat → Int)
    (rand : Nat → Nat) (fuel : Nat) (code : String) (t : Int)
    (h : genCode existing clock rand fuel = some code)
    (ht : ∀ i j, i < fuel → j < existing.length → clock i j ≤ t) :
    ∀ c ∈ existing, c.code = code → c.revoked = true ∨ c.expiresAt ≤ t := by
  obtain ⟨k, hkf, hk⟩ := genCode_not_collides existing clock rand fuel code h
  intro c hc hcode
  obtain ⟨j, hj⟩ := List.getElem?_of_mem hc
  have hjl : j < existing.length := (List.getElem?_eq_some.mp hj).1
  rcases (collides_eq_false_iff _ _ _).mp hk j c hj hcode with h1 | h1
  · exact Or.inl h1
  · exact Or.inr (le_trans h1 (ht k j hkf hjl))

/-- C3: `genCode` returns a code exactly when, among the draws it is allowed,
there is a first candidate that does not collide, and it returns that candidate;
a candidate collides exactly when some existing record has the same code string,
`revoked = false` and `now < expiresAt`, where `now` is the clock as the loop
condition reads it for that draw and that record. Hence the returned code is
never the code of a record that is active when it is checked, nor at any
instant that no reading of the loop (within the draws it is allowed) exceeds;
and when every record is revoked
or expired at the first check, the very first candidate is returned. -/
theorem genCode_spec (existing : List CodeRecord) (clock : Nat → Nat → Int)
    (rand : Nat → Nat) (fuel : Nat) (code : String) :
    (genCode existing clock rand fuel = some code ↔
      ∃ k, k < fuel ∧ code = candidate (rand k) ∧
        (¬ ∃ j c, existing[j]? = some c ∧ c.code = candidate (rand k) ∧ c.revoked = false ∧
          clock k j < c.expiresAt) ∧
        ∀ i, i < k → ∃ j c, existing[j]? = some c ∧ c.code = candidate (rand i) ∧
          c.revoked = false ∧ clock i j < c.expiresAt) ∧
    (genCode existing clock rand fuel = some code →
      (∃ k, k < fuel ∧ ∀ j c, existing[j]? = some c → c.code = code →
        c.revoked = true ∨ c.expiresAt ≤ clock k j) ∧
      ∀ t : Int, (∀ i j, i < fuel → j < existing.length → clock i j ≤ t) →
        ∀ c ∈ existing, c.code = code → c.revoked = true ∨ c.expiresAt ≤ t) ∧
    ((∀ j c, existing[j]? = some c → c.revoked = true ∨ c.expiresAt ≤ clock 0 j) →
      0 < fuel → genCode existing clock rand fuel = some (candidate (rand 0))) := by
  refine ⟨?_, ?_, ?_⟩
  · rw [genCode_eq_some]
    constructor
    · rintro ⟨k, h2, h3, h4, h5⟩
      refine ⟨k, h2, h3, ?_, fun j hj => (collides_iff _ _ _).mp (h5 j hj)⟩
      intro hex
      rw [(collides_iff _ _ _).mpr hex] at h4
      cases h4
    · rintro ⟨k, h2, h3, h4, h5⟩
      refine ⟨k, h2, h3, ?_, fun j hj => (collides_iff _ _ _).mpr (h5 j hj)⟩
      cases hcol : collides existing (clock k) (candidate (rand k)) with
      | false => rfl
      | true => exact absurd ((collides_iff _ _ _).mp hcol) h4
  · intro h
    constructor
    · obtain ⟨k, hk, hcol⟩ := genCode_not_collides existing clock rand fuel code h
      exact ⟨k, hk, (collides_eq_false_iff _ _ _).mp hcol⟩
    · intro t ht
      exact genCode_not_active existing clock rand fuel code t h ht
  · intro hall hfuel
    rw [genCode_eq_some]
    refine ⟨0, hfuel, rfl, ?_, fun j hj => absurd hj (Nat.not_lt_zero j)⟩
    rw [collides_eq_false_iff]
    intro j c hj _
    exact hall j c hj

/-- C3 on a collection where `000001` is active and `000002` is revoked, with
draws 1, 2, 3, ... and a clock that stands at 4: the first draw is rejected and
the revoked value `000002` is returned, at the second draw. -/
theorem genCode_spec_witness :
    genCode [⟨"000001", "", 0, 9, false⟩, ⟨"000002", "", 0, 9, true⟩] (fun _ _ => 4)
        (fun i => i + 1) 5 = some "000002" ∧
    ∀ c ∈ [(⟨"000001", "", 0, 9, false⟩ : CodeRecord), ⟨"000002", "", 0, 9, true⟩],
      c.code = "000002" → c.revoked = true ∨ c.expiresAt ≤ 4 :=
  ⟨by decide,
   ((genCode_spec [⟨"000001", "", 0, 9, false⟩, ⟨"000002", "", 0, 9, true⟩] (fun _ _ => 4)
      (fun i => i + 1) 5 "000002").2.1 (by decide)).2 4 (fun _ _ _ _ => le_refl 4)⟩

/-! ### Revocation: the first matching record -/

theorem findIndex_eq_none {α : Type} (p : α → Bool) (l : List α) :
    findIndex p l = none ↔ ∀ a ∈ l, p a = false := by
  induction l with
  | nil => simp [findIndex]
  | cons a as ih =>
    cases hp : p a with
    | true => simp [findIndex, hp]
    | false => simp [findIndex, hp, ih]

theorem findIndex_split {α : Type} (p : α → Bool) (pre : List α) (a : α) (post : List α)
    (hpre : ∀ b ∈ pre, p b = false) (ha : p a = true) :
    findIndex p (pre ++ a :: post) = some pre.length := by
  induction pre with
  | nil => simp [findIndex, ha]
  | cons b bs ih =>
    have hb : p b = false := hpre b (List.mem_cons_self b bs)
    have hbs : ∀ c ∈ bs, p c = false := fun c hc => hpre c (List.mem_cons_of_mem b hc)
    simp [findIndex, hb, ih hbs]

theorem exists_first_split {α : Type} (p : α → Bool) (l : List α)
    (h : ∃ a ∈ l, p a = true) :
    ∃ pre a post, l = pre ++ a :: post ∧ (∀ b ∈ pre, p b = false) ∧ p a = true := by
  induction l with
  | nil =>
    obtain ⟨a, ha, _⟩ := h
    cases ha
  | cons b bs ih =>
    cases hb : p b with
    | true => exact ⟨[], b, bs, rfl, by simp, hb⟩
    | false =>
      have h2 : ∃ a ∈ bs, p a = true := by
        obtain ⟨a, ha, hpa⟩ := h
        rcases List.mem_cons.mp ha with rfl | hmem
        · rw [hb] at hpa
          cases hpa
        · exact ⟨a, hmem, hpa⟩
      obtain ⟨pre, a, post, hl, hpre, ha⟩ := ih h2
      refine ⟨b :: pre, a, post, by simp [hl], ?_, ha⟩
      intro c hc
      rcases List.mem_cons.mp hc with rfl | hmem
      · exact hb
      · exact hpre c hmem

theorem setRevoked_split (pre : List CodeRecord) (entry : CodeRecord)
    (post : List CodeRecord) :
    setRevoked (pre ++ entry :: post) pre.length =
      pre ++ { entry with revoked := true } :: post := by
  induction pre with
  | nil => simp [setRevoked]
  | cons b bs ih => simp [setRevoked, ih]

theorem revoke_of_none (codes : List CodeRecord) (code : String)
    (h : ∀ c ∈ codes, c.code ≠ code) :
    revoke codes code = (⟨404, false, some "Code tidak dijumpai"⟩, codes) := by
  have hnone : findIndex (fun c : CodeRecord => c.code == code) codes = none := by
    rw [findIndex_eq_none]
    intro c hc
    simpa using h c hc
  simp [revoke, hnone]

theorem revoke_of_split (code : String) (pre : List CodeRecord) (entry : CodeRecord)
    (post : List CodeRecord) (hpre : ∀ c ∈ pre, c.code ≠ code) (hentry : entry.code = code) :
    revoke (pre ++ entry :: post) code =
      (⟨200, true, none⟩, pre ++ { entry with revoked := true } :: post) := by
  have hsome : findIndex (fun c : CodeRecord => c.code == code) (pre ++ entry :: post)
      = some pre.length := by
    apply findIndex_split
    · intro c hc
      simpa using hpre c hc
    · simpa using hentry
  simp [revoke, hsome, setRevoked_split]

theorem exists_code_split (codes : List CodeRecord) (code : String)
    (h : ∃ c ∈ codes, c.code = code) :
    ∃ pre entry post, codes = pre ++ entry :: post ∧ (∀ c ∈ pre, c.code ≠ code) ∧
      entry.code = code := by
  have h2 : ∃ c ∈ codes, (fun c : CodeRecord => c.code == code) c = true := by
    obtain ⟨c, hc, hcode⟩ := h
    exact ⟨c, hc, by simpa using hcode⟩
  obtain ⟨pre, entry, post, hl, hpre, hentry⟩ := exists_first_split _ codes h2
  refine ⟨pre, entry, post, hl, ?_, by simpa using hentry⟩
  intro c hc
  simpa using hpre c hc

/-! ### The collection after a create request -/

theorem generate_state (codes : List CodeRecord) (now : Int) (clock : Nat → Nat → Int)
    (created : Int) (rand : Nat → Nat) (fuel : Nat) (body : CreateBody)
    (out : Outcome CreateResponse) (codes2 : List CodeRecord)
    (h : generate codes now clock created rand fuel body = some (out, codes2)) :
    codes2 = codes ∨
      ∃ code exp, genCode codes clock rand fuel = some code ∧
        codes2 = codes ++ [⟨code, noteText body.note, created, exp, false⟩] := by
  unfold generate at h
  simp only at h
  split at h
  · simp only [Option.some.injEq, Prod.mk.injEq] at h
    exact Or.inl h.2.symm
  · split at h
    · simp only [Option.some.injEq, Prod.mk.injEq] at h
      exact Or.inl h.2.symm
    · split at h
      · simp only [Option.some.injEq, Prod.mk.injEq] at h
        exact Or.inl h.2.symm
      · next exp _ =>
        split at h
        · cases h
        · next code hgen =>
          simp only [Option.some.injEq, Prod.mk.injEq] at h
          exact Or.inr ⟨code, exp, hgen, h.2.symm⟩

/-! ### At most one active record per code value -/

theorem atMostOneActive_iff_index (t : Int) (codes : List CodeRecord) :
    AtMostOneActive t codes ↔
      ∀ (i j : Nat) (hi : i < codes.length) (hj : j < codes.length), i ≠ j →
        codes[i].code = codes[j].code →
        ¬ ((codes[i].revoked = false ∧ t < codes[i].expiresAt) ∧
            (codes[j].revoked = false ∧ t < codes[j].expiresAt)) := by
  unfold AtMostOneActive
  rw [List.pairwise_iff_getElem]
  constructor
  · intro h i j hi hj hne hcode hact
    rcases Nat.lt_or_gt_of_ne hne with hlt | hgt
    · exact h i j hi hj hlt hcode hact
    · exact h j i hj hi hgt hcode.symm ⟨hact.2, hact.1⟩
  · intro h i j hi hj hlt hcode hact
    exact h i j hi hj (Nat.ne_of_lt hlt) hcode hact

theorem atMostOneActive_mono (t t2 : Int) (codes : List CodeRecord) (ht : t ≤ t2)
    (h : AtMostOneActive t codes) : AtMostOneActive t2 codes := by
  unfold AtMostOneActive at h ⊢
  refine List.Pairwise.imp ?_ h
  intro a b hab hcode hact
  exact hab hcode ⟨⟨hact.1.1, by omega⟩, ⟨hact.2.1, by omega⟩⟩

theorem atMostOneActive_append (t : Int) (codes : List CodeRecord) (r : CodeRecord)
    (h : AtMostOneActive t codes)
    (hfresh : ∀ a ∈ codes, a.code = r.code → a.revoked = true ∨ a.expiresAt ≤ t) :
    AtMostOneActive t (codes ++ [r]) := by
  unfold AtMostOneActive at h ⊢
  rw [List.pairwise_append]
  refine ⟨h, List.pairwise_singleton _ _, ?_⟩
  intro a ha b hb hcode hact
  rw [List.mem_singleton] at hb
  subst hb
  rcases hfresh a ha hcode with h1 | h1
  · rw [h1] at hact
    exact absurd hact.1.1 (by decide)
  · have := hact.1.2
    omega

theorem atMostOneActive_setRevoked (t : Int) (pre : List CodeRecord) (entry : CodeRecord)
    (post : List CodeRecord) (h : AtMostOneActive t (pre ++ entry :: post)) :
    AtMostOneActive t (pre ++ { entry with revoked := true } :: post) := by
  unfold AtMostOneActive at h ⊢
  rw [List.pairwise_append, List.pairwise_cons] at h ⊢
  obtain ⟨h1, ⟨_, h3⟩, h4⟩ := h
  refine ⟨h1, ⟨?_, h3⟩, ?_⟩
  · intro b _ _ hact
    have := hact.1.1
    simp at this
  · intro a ha b hb hcode hact
    rcases List.mem_cons.mp hb with rfl | hmem
    · have := hact.2.1
      simp at this
    · exact h4 a ha b (List.mem_cons_of_mem _ hmem) hcode hact

theorem atMostOneActive_revoke (t : Int) (codes : List CodeRecord) (code : String)
    (h : AtMostOneActive t codes) : AtMostOneActive t (revoke codes code).2 := by
  by_cases hex : ∃ c ∈ codes, c.code = code
  · obtain ⟨pre, entry, post, hl, hpre, hentry⟩ := exists_code_split codes code hex
    subst hl
    rw [revoke_of_split code pre entry post hpre hentry]
    exact atMostOneActive_setRevoked t pre entry post h
  · have hnone : ∀ c ∈ codes, c.code ≠ code := fun c hc hcode => hex ⟨c, hc, hcode⟩
    rw [revoke_of_none codes code hnone]
    exact h

theorem atMostOneActive_generate (t : Int) (codes : List CodeRecord) (now : Int)
    (clock : Nat → Nat → Int) (created : Int) (rand : Nat → Nat)
    (fuel : Nat) (body : CreateBody) (out : Outcome CreateResponse)
    (codes2 : List CodeRecord) (h : AtMostOneActive t codes)
    (hgen : generate codes now clock created rand fuel body = some (out, codes2))
    (ht : ∀ i j, i < fuel → j < codes.length → clock i j ≤ t) :
    AtMostOneActive t codes2 := by
  rcases generate_state codes now clock created rand fuel body out codes2 hgen with
    hsame | hnew
  · rw [hsame]
    exact h
  · obtain ⟨code, exp, hcode, hcodes2⟩ := hnew
    rw [hcodes2]
    exact atMostOneActive_append t codes _ h
      (genCode_not_active codes clock rand fuel code t hcode ht)

/-- C4: the invariant "at most one active record per code value" is preserved.
If it holds of a collection at instant `t`, then it holds at `t` of the
collection left by any create request served at `t` (no reading of the clock
that the loop of `genCode` takes, within the draws it is allowed, is later than
`t`) and of the collection left by any revoke request, and it holds of the
collection and of these two collections at every later instant that no such
reading exceeds. -/
theorem atMostOneActive_preserved (t : Int) (codes : List CodeRecord)
    (hinv : AtMostOneActive t codes) :
    (∀ (now : Int) (clock : Nat → Nat → Int) (created : Int) (rand : Nat → Nat) (fuel : Nat)
        (body : CreateBody) (out : Outcome CreateResponse) (codes2 : List CodeRecord),
      generate codes now clock created rand fuel body = some (out, codes2) →
        ((∀ i j, i < fuel → j < codes.length → clock i j ≤ t) →
          AtMostOneActive t codes2) ∧
        ∀ t2, t ≤ t2 → (∀ i j, i < fuel → j < codes.length → clock i j ≤ t2) →
          AtMostOneActive t2 codes2) ∧
    (∀ code : String,
      AtMostOneActive t (revoke codes code).2 ∧
        ∀ t2, t ≤ t2 → AtMostOneActive t2 (revoke codes code).2) ∧
    (∀ t2, t ≤ t2 → AtMostOneActive t2 codes) := by
  refine ⟨?_, ?_, ?_⟩
  · intro now clock created rand fuel body out codes2 hgen
    constructor
    · intro ht
      exact atMostOneActive_generate t codes now clock created rand fuel body out codes2
        hinv hgen ht
    · intro t2 ht2 hclock
      exact atMostOneActive_generate t2 codes now clock created rand fuel body out codes2
        (atMostOneActive_mono t t2 codes ht2 hinv) hgen hclock
  · intro code
    have h2 := atMostOneActive_revoke t codes code hinv
    exact ⟨h2, fun t2 ht => atMostOneActive_mono t t2 _ ht h2⟩
  · intro t2 ht
    exact atMostOneActive_mono t t2 codes ht hinv

/-- C4 on a collection with one active record `000001`, at instant `4`: a create
request whose draws are 1, 2, ... appends `000002`, and the invariant holds of
the new collection at `4` and at `7`. -/
theorem atMostOneActive_preserved_witness :
    AtMostOneActive 4 [⟨"000001", "", 0, 9, false⟩] ∧
    generate [⟨"000001", "", 0, 9, false⟩] 4 (fun _ _ => 4) 4 (fun i => i + 1) 5
        ⟨.fin 1, "minutes", .undefined⟩
      = some (.sent ⟨200, true, none, some "000002", some 60004,
          some "/scanner.html?code=000002"⟩,
          [⟨"000001", "", 0, 9, false⟩, ⟨"000002", "", 4, 60004, false⟩]) ∧
    AtMostOneActive 4 [⟨"000001", "", 0, 9, false⟩, ⟨"000002", "", 4, 60004, false⟩] ∧
    AtMostOneActive 7 [⟨"000001", "", 0, 9, false⟩, ⟨"000002", "", 4, 60004, false⟩] :=
  have hinv : AtMostOneActive 4 [⟨"000001", "", 0, 9, false⟩] := by
    decide
  have hgen : generate [⟨"000001", "", 0, 9, false⟩] 4 (fun _ _ => 4) 4 (fun i => i + 1) 5
        ⟨.fin 1, "minutes", .undefined⟩
      = some (.sent ⟨200, true, none, some "000002", some 60004,
          some "/scanner.html?code=000002"⟩,
          [⟨"000001", "", 0, 9, false⟩, ⟨"000002", "", 4, 60004, false⟩]) := by
    decide!
  have h := (atMostOneActive_preserved 4 [⟨"000001", "", 0, 9, false⟩] hinv).1
    4 (fun _ _ => 4) 4 (fun i => i + 1) 5 ⟨.fin 1, "minutes", .undefined⟩ _ _ hgen
  ⟨hinv, hgen, h.1 (fun _ _ _ _ => le_refl 4),
   h.2 7 (by decide) (fun _ _ _ _ => (by decide : (4 : Int) ≤ 7))⟩

/-! ### Rounding to the nearest double -/

theorem pow2_eq (k : Int) : pow2 k = (2 : ℚ) ^ k := by
  unfold pow2
  split
  · next h =>
    obtain ⟨n, rfl⟩ := Int.eq_ofNat_of_zero_le h
    simp
  · next h =>
    have hk : 0 ≤ -k := by omega
    obtain ⟨n, hn⟩ := Int.eq_ofNat_of_zero_le hk
    have e : k = -(n : Int) := by omega
    rw [hn, e]
    simp

theorem pow2_pos (k : Int) : 0 < pow2 k := by
  rw [pow2_eq]
  positivity

theorem pow2_add (a b : Int) : pow2 (a + b) = pow2 a * pow2 b := by
  simp only [pow2_eq]
  exact zpow_add₀ (by norm_num) a b

theorem pow2_le_pow2 (a b : Int) (h : a ≤ b) : pow2 a ≤ pow2 b := by
  simp only [pow2_eq]
  exact zpow_le_zpow_right₀ (by norm_num) h

theorem pow2_lt_pow2_iff (a b : Int) : pow2 a < pow2 b ↔ a < b := by
  simp only [pow2_eq]
  exact zpow_lt_zpow_iff_right₀ (by norm_num)

theorem pow2_natCast (n : Nat) : pow2 (n : Int) = ((2 ^ n : Nat) : ℚ) := by
  rw [pow2_eq]
  simp

theorem log2Fuel_spec (fuel : Nat) :
    ∀ n : Nat, n ≤ fuel → 1 ≤ n →
      2 ^ log2Fuel fuel n ≤ n ∧ n < 2 ^ (log2Fuel fuel n + 1) := by
  induction fuel with
  | zero =>
    intro n h1 h2
    omega
  | succ fuel ih =>
    intro n h1 h2
    simp only [log2Fuel]
    split
    · next h =>
      have := ih (n / 2) (by omega) (by omega)
      rw [pow_succ, pow_succ (n := log2Fuel fuel (n / 2) + 1)]
      omega
    · next h =>
      simp
      omega

theorem log2_spec (n : Nat) (h : 1 ≤ n) : 2 ^ log2 n ≤ n ∧ n < 2 ^ (log2 n + 1) :=
  log2Fuel_spec n n (le_refl n) h


theorem floorLog2_spec (q : ℚ) (hq : 0 < q) :
    pow2 (floorLog2 q) ≤ q ∧ q < pow2 (floorLog2 q + 1) := by
  have hnum : 0 < q.num := Rat.num_pos.mpr hq
  have hN : 1 ≤ q.num.natAbs := by omega
  have hD : 1 ≤ q.den := q.den_pos
  obtain ⟨hN1, hN2⟩ := log2_spec q.num.natAbs hN
  obtain ⟨hD1, hD2⟩ := log2_spec q.den hD
  have hcast : (q.num : ℚ) = (q.num.natAbs : ℚ) := by
    have h0 : ((q.num.natAbs : Int) : ℚ) = (q.num : ℚ) := by
      rw [Int.natAbs_of_nonneg (le_of_lt hnum)]
    rw [← h0, Int.cast_natCast]
  have hqe : q = (q.num.natAbs : ℚ) / (q.den : ℚ) := by
    rw [← hcast]
    exact (Rat.num_div_den q).symm
  have hDpos : (0 : ℚ) < (q.den : ℚ) := by exact_mod_cast hD
  have hN1q : (2 : ℚ) ^ log2 q.num.natAbs ≤ (q.num.natAbs : ℚ) := by exact_mod_cast hN1
  have hN2q : (q.num.natAbs : ℚ) < (2 : ℚ) ^ (log2 q.num.natAbs + 1) := by exact_mod_cast hN2
  have hD1q : (2 : ℚ) ^ log2 q.den ≤ (q.den : ℚ) := by exact_mod_cast hD1
  have hD2q : (q.den : ℚ) < (2 : ℚ) ^ (log2 q.den + 1) := by exact_mod_cast hD2
  have hpa : (0 : ℚ) < (2 : ℚ) ^ log2 q.num.natAbs := by positivity
  have hpb : (0 : ℚ) < (2 : ℚ) ^ log2 q.den := by positivity
  have e1 : pow2 ((log2 q.num.natAbs : Int) - (log2 q.den : Int) + 1)
      = (2 : ℚ) ^ (log2 q.num.natAbs + 1) / (2 : ℚ) ^ log2 q.den := by
    rw [pow2_eq, show ((log2 q.num.natAbs : Int) - (log2 q.den : Int) + 1)
      = ((log2 q.num.natAbs + 1 : Nat) : Int) - ((log2 q.den : Nat) : Int) by push_cast; ring,
      zpow_sub₀ (by norm_num), zpow_natCast, zpow_natCast]
  have e2 : pow2 ((log2 q.num.natAbs : Int) - (log2 q.den : Int) - 1)
      = (2 : ℚ) ^ log2 q.num.natAbs / (2 : ℚ) ^ (log2 q.den + 1) := by
    rw [pow2_eq, show ((log2 q.num.natAbs : Int) - (log2 q.den : Int) - 1)
      = ((log2 q.num.natAbs : Nat) : Int) - ((log2 q.den + 1 : Nat) : Int) by push_cast; ring,
      zpow_sub₀ (by norm_num), zpow_natCast, zpow_natCast]
  have upper : q < pow2 ((log2 q.num.natAbs : Int) - (log2 q.den : Int) + 1) := by
    have h1 : (q.num.natAbs : ℚ) / (q.den : ℚ)
        < (2 : ℚ) ^ (log2 q.num.natAbs + 1) / (2 : ℚ) ^ log2 q.den := by
      rw [div_lt_div_iff₀ hDpos hpb]
      calc (q.num.natAbs : ℚ) * 2 ^ log2 q.den
          < 2 ^ (log2 q.num.natAbs + 1) * 2 ^ log2 q.den :=
            mul_lt_mul_of_pos_right hN2q hpb
        _ ≤ 2 ^ (log2 q.num.natAbs + 1) * (q.den : ℚ) :=
            mul_le_mul_of_nonneg_left hD1q (by positivity)
    rw [e1]
    exact lt_of_eq_of_lt hqe h1
  have lower : pow2 ((log2 q.num.natAbs : Int) - (log2 q.den : Int) - 1) ≤ q := by
    have h1 : (2 : ℚ) ^ log2 q.num.natAbs / (2 : ℚ) ^ (log2 q.den + 1)
        ≤ (q.num.natAbs : ℚ) / (q.den : ℚ) := by
      rw [div_le_div_iff₀ (by positivity) hDpos]
      calc (2 : ℚ) ^ log2 q.num.natAbs * (q.den : ℚ)
          ≤ (q.num.natAbs : ℚ) * (q.den : ℚ) :=
            mul_le_mul_of_nonneg_right hN1q (le_of_lt hDpos)
        _ ≤ (q.num.natAbs : ℚ) * 2 ^ (log2 q.den + 1) :=
            mul_le_mul_of_nonneg_left (le_of_lt hD2q) (by positivity)
    rw [e2]
    exact le_of_le_of_eq h1 hqe.symm
  unfold floorLog2
  simp only
  split
  · next h => exact ⟨h, upper⟩
  · next h =>
    refine ⟨lower, ?_⟩
    rw [sub_add_cancel]
    exact not_le.mp h

theorem roundHalfEven_bounds (x : ℚ) :
    ⌊x⌋ ≤ roundHalfEven x ∧ roundHalfEven x ≤ ⌈x⌉ := by
  unfold roundHalfEven
  simp only
  have hfc : ⌊x⌋ ≤ ⌈x⌉ := Int.floor_le_ceil x
  by_cases hint : x - ⌊x⌋ < 1 / 2
  · rw [if_pos hint]
    exact ⟨le_refl _, hfc⟩
  · rw [if_neg hint]
    have hlt : (⌊x⌋ : ℚ) < x := by linarith
    have hceil : ⌊x⌋ + 1 ≤ ⌈x⌉ := by
      rw [Int.add_one_le_iff, Int.lt_ceil]
      exact hlt
    split
    · exact ⟨by omega, hceil⟩
    · split
      · exact ⟨le_refl _, hfc⟩
      · exact ⟨by omega, hceil⟩

theorem roundHalfEven_ge (x : ℚ) (n : Int) (h : (n : ℚ) ≤ x) : n ≤ roundHalfEven x :=
  le_trans (Int.le_floor.mpr h) (roundHalfEven_bounds x).1

theorem roundHalfEven_le (x : ℚ) (n : Int) (h : x ≤ (n : ℚ)) : roundHalfEven x ≤ n :=
  le_trans (roundHalfEven_bounds x).2 (Int.ceil_le.mpr h)

theorem nearestPos_grid (q : ℚ) (n : Int) :
    ((n : ℚ) * pow2 (max (floorLog2 q - 52) (-1074)) ≤ q →
      (n : ℚ) * pow2 (max (floorLog2 q - 52) (-1074)) ≤ nearestPos q) ∧
    (q ≤ (n : ℚ) * pow2 (max (floorLog2 q - 52) (-1074)) →
      nearestPos q ≤ (n : ℚ) * pow2 (max (floorLog2 q - 52) (-1074))) := by
  have hp := pow2_pos (max (floorLog2 q - 52) (-1074))
  unfold nearestPos
  simp only
  constructor
  · intro h
    have h1 : (n : ℚ) ≤ q / pow2 (max (floorLog2 q - 52) (-1074)) := by
      rw [le_div_iff₀ hp]
      exact h
    have h2 := roundHalfEven_ge _ n h1
    exact mul_le_mul_of_nonneg_right (by exact_mod_cast h2) (le_of_lt hp)
  · intro h
    have h1 : q / pow2 (max (floorLog2 q - 52) (-1074)) ≤ (n : ℚ) := by
      rw [div_le_iff₀ hp]
      exact h
    have h2 := roundHalfEven_le _ n h1
    exact mul_le_mul_of_nonneg_right (by exact_mod_cast h2) (le_of_lt hp)


theorem int_on_grid (p : Int) (hp : p ≤ 0) (K : Int) :
    ((K * ((2 ^ (-p).toNat : Nat) : Int) : Int) : ℚ) * pow2 p = (K : ℚ) := by
  obtain ⟨n, hn⟩ := Int.eq_ofNat_of_zero_le (show 0 ≤ -p by omega)
  have e : p = -(n : Int) := by omega
  subst e
  have h1 : (-(-(n : Int))).toNat = n := by simp
  have h2 : pow2 (-(n : Int)) = 1 / (2 : ℚ) ^ n := by
    rw [pow2_eq, zpow_neg, zpow_natCast, one_div]
  rw [h1, h2]
  push_cast
  field_simp

theorem pow2_split (e : Int) : ((2 ^ 52 : Int) : ℚ) * pow2 (e - 52) = pow2 e := by
  have h : pow2 (52 + (e - 52)) = pow2 52 * pow2 (e - 52) := pow2_add 52 (e - 52)
  have h52 : pow2 52 = ((2 ^ 52 : Int) : ℚ) := by
    rw [show (52 : Int) = ((52 : Nat) : Int) by rfl, pow2_natCast]
    norm_num
  rw [← h52, ← h]
  congr 1
  ring

theorem pow2_53 : pow2 53 = ((2 ^ 53 : Int) : ℚ) := by
  rw [show (53 : Int) = ((53 : Nat) : Int) by rfl, pow2_natCast]
  norm_num

theorem nearestPos_nonneg (q : ℚ) (hq : 0 < q) : 0 ≤ nearestPos q := by
  have h := (nearestPos_grid q 0).1
  simp only [Int.cast_zero, zero_mul] at h
  exact h (le_of_lt hq)

theorem nearestPos_ge_int (q : ℚ) (K : Int) (hK1 : 1 ≤ K) (hK2 : K ≤ 2 ^ 53)
    (h : (K : ℚ) ≤ q) : (K : ℚ) ≤ nearestPos q := by
  have hK1q : (1 : ℚ) ≤ (K : ℚ) := by exact_mod_cast hK1
  have hq : 0 < q := by linarith
  obtain ⟨hlo, hhi⟩ := floorLog2_spec q hq
  have he0 : 0 ≤ floorLog2 q := by
    by_contra hneg
    have h1 : pow2 (floorLog2 q + 1) ≤ pow2 0 := pow2_le_pow2 _ _ (by omega)
    have h0 : pow2 0 = 1 := by
      rw [pow2_eq]
      simp
    rw [h0] at h1
    linarith
  have hp : max (floorLog2 q - 52) (-1074) = floorLog2 q - 52 := max_eq_left (by omega)
  have hgrid := nearestPos_grid q
  rw [hp] at hgrid
  by_cases he : floorLog2 q ≤ 52
  · have hon := int_on_grid (floorLog2 q - 52) (by omega) K
    have := (hgrid (K * ((2 ^ (-(floorLog2 q - 52)).toNat : Nat) : Int))).1
    rw [hon] at this
    exact this h
  · have hsplit := pow2_split (floorLog2 q)
    have := (hgrid (2 ^ 52)).1
    rw [hsplit] at this
    have h2 := this hlo
    have h3 : pow2 53 ≤ pow2 (floorLog2 q) := pow2_le_pow2 _ _ (by omega)
    rw [pow2_53] at h3
    have h4 : (K : ℚ) ≤ ((2 ^ 53 : Int) : ℚ) := by exact_mod_cast hK2
    linarith

theorem nearestPos_le_int (q : ℚ) (hq : 0 < q) (K : Int) (hK2 : K ≤ 2 ^ 53)
    (h : q ≤ (K : ℚ)) : nearestPos q ≤ (K : ℚ) := by
  obtain ⟨hlo, hhi⟩ := floorLog2_spec q hq
  have h4 : (K : ℚ) ≤ ((2 ^ 53 : Int) : ℚ) := by exact_mod_cast hK2
  have he : floorLog2 q ≤ 53 := by
    by_contra hbig
    have h1 : pow2 54 ≤ pow2 (floorLog2 q) := pow2_le_pow2 _ _ (by omega)
    have h2 : pow2 53 < pow2 54 := (pow2_lt_pow2_iff 53 54).mpr (by decide)
    rw [pow2_53] at h2
    linarith
  have hgrid := nearestPos_grid q
  by_cases hp : max (floorLog2 q - 52) (-1074) ≤ 0
  · have hon := int_on_grid (max (floorLog2 q - 52) (-1074)) hp K
    have := (hgrid (K * ((2 ^ (-(max (floorLog2 q - 52) (-1074))).toNat : Nat) : Int))).2
    rw [hon] at this
    exact this h
  · have he53 : floorLog2 q = 53 := by
      rcases le_max_iff.mp (show 1 ≤ max (floorLog2 q - 52) (-1074) by omega) with h1 | h1
      · omega
      · omega
    have hpe : max (floorLog2 q - 52) (-1074) = floorLog2 q - 52 :=
      max_eq_left (by omega)
    rw [hpe] at hgrid
    have hsplit := pow2_split (floorLog2 q)
    have := (hgrid (2 ^ 52)).2
    rw [hsplit, he53, pow2_53] at this
    rw [he53, pow2_53] at hlo
    have hqK : q ≤ ((2 ^ 53 : Int) : ℚ) := le_trans h h4
    have h5 := this hqK
    linarith

theorem nearest_ge_int (q : ℚ) (K : Int) (hK1 : -(2 ^ 53) ≤ K) (hK2 : K ≤ 2 ^ 53)
    (h : (K : ℚ) ≤ q) : (K : ℚ) ≤ nearest q := by
  unfold nearest
  split
  · next hq =>
    by_cases hK : 1 ≤ K
    · exact nearestPos_ge_int q K hK hK2 h
    · have h0 : (K : ℚ) ≤ 0 := by exact_mod_cast (show K ≤ 0 by omega)
      exact le_trans h0 (nearestPos_nonneg q hq)
  · split
    · next hq1 hq2 =>
      have h1 : -q ≤ ((-K : Int) : ℚ) := by
        push_cast
        linarith
      have h2 := nearestPos_le_int (-q) (by linarith) (-K) (by omega) h1
      push_cast at h2
      linarith
    · next hq1 hq2 =>
      have : q = 0 := le_antisymm (not_lt.mp hq1) (not_lt.mp hq2)
      rw [this] at h
      exact h

theorem nearest_le_int (q : ℚ) (K : Int) (hK1 : -(2 ^ 53) ≤ K) (hK2 : K ≤ 2 ^ 53)
    (h : q ≤ (K : ℚ)) : nearest q ≤ (K : ℚ) := by
  unfold nearest
  split
  · next hq => exact nearestPos_le_int q hq K hK2 h
  · split
    · next hq1 hq2 =>
      by_cases hK : K ≤ -1
      · have h1 : ((-K : Int) : ℚ) ≤ -q := by
          push_cast
          linarith
        have h2 := nearestPos_ge_int (-q) (-K) (by omega) (by omega) h1
        push_cast at h2
        linarith
      · have h0 : (0 : ℚ) ≤ (K : ℚ) := by exact_mod_cast (show 0 ≤ K by omega)
        have h2 := nearestPos_nonneg (-q) (by linarith)
        linarith
    · next hq1 hq2 =>
      have : q = 0 := le_antisymm (not_lt.mp hq1) (not_lt.mp hq2)
      rw [this] at h
      exact h

theorem nearest_int (K : Int) (hK1 : -(2 ^ 53) ≤ K) (hK2 : K ≤ 2 ^ 53) :
    nearest (K : ℚ) = (K : ℚ) :=
  le_antisymm (nearest_le_int _ K hK1 hK2 (le_refl _)) (nearest_ge_int _ K hK1 hK2 (le_refl _))

theorem toDouble_eq_fin (q v : ℚ) (h : JSNumber.toDouble q = .fin v) :
    v = nearest q ∧ -pow2 1024 < v ∧ v < pow2 1024 := by
  unfold JSNumber.toDouble at h
  split at h
  · cases h
  · next h1 =>
    split at h
    · cases h
    · next h2 =>
      simp only [JSNumber.fin.injEq] at h
      rw [← h]
      exact ⟨rfl, not_le.mp h2, not_le.mp h1⟩

theorem toDouble_int (K : Int) (hK1 : -(2 ^ 53) ≤ K) (hK2 : K ≤ 2 ^ 53) :
    JSNumber.toDouble (K : ℚ) = .fin (K : ℚ) := by
  have hn := nearest_int K hK1 hK2
  have hbig : pow2 53 < pow2 1024 := (pow2_lt_pow2_iff 53 1024).mpr (by decide)
  rw [pow2_53] at hbig
  have h1 : (K : ℚ) ≤ ((2 ^ 53 : Int) : ℚ) := by exact_mod_cast hK2
  have h2 : ((-(2 ^ 53) : Int) : ℚ) ≤ (K : ℚ) := by exact_mod_cast hK1
  push_cast at h1 h2 hbig
  unfold JSNumber.toDouble
  rw [hn, if_neg (by linarith), if_neg (by linarith)]

theorem toDouble_nonneg (q : ℚ) (hq : 0 ≤ q) :
    JSNumber.toDouble q = .posInf ∨ ∃ v, JSNumber.toDouble q = .fin v ∧ 0 ≤ v := by
  have hn : 0 ≤ nearest q := by
    have := nearest_ge_int q 0 (by decide) (by decide) (by simpa using hq)
    simpa using this
  unfold JSNumber.toDouble
  split
  · exact Or.inl rfl
  · rw [if_neg (by have := pow2_pos 1024; linarith)]
    exact Or.inr ⟨_, rfl, hn⟩

theorem toIntegerOrInfinity_ge (v : ℚ) (K : Int) (h : (K : ℚ) ≤ v) :
    K ≤ toIntegerOrInfinity v := by
  unfold toIntegerOrInfinity
  split
  · exact Int.le_floor.mpr h
  · exact Int.cast_le.mp (le_trans h (Int.le_ceil v))

theorem toIntegerOrInfinity_le (v : ℚ) (K : Int) (h : v ≤ (K : ℚ)) :
    toIntegerOrInfinity v ≤ K := by
  unfold toIntegerOrInfinity
  split
  · exact Int.cast_le.mp (le_trans (Int.floor_le v) h)
  · exact Int.ceil_le.mpr h

theorem timeClip_toDouble (q : ℚ) (e : Int) (h : timeClip (JSNumber.toDouble q) = some e) :
    e = toIntegerOrInfinity (nearest q) ∧ |nearest q| ≤ 8640000000000000 := by
  cases hd : JSNumber.toDouble q with
  | nan => rw [hd] at h; simp [timeClip] at h
  | posInf => rw [hd] at h; simp [timeClip] at h
  | negInf => rw [hd] at h; simp [timeClip] at h
  | fin v =>
    obtain ⟨hv, _, _⟩ := toDouble_eq_fin q v hd
    rw [hd] at h
    simp only [timeClip] at h
    split at h
    · cases h
    · next hclip =>
      simp only [Option.some.injEq] at h
      rw [← hv]
      exact ⟨h.symm, not_lt.mp hclip⟩

theorem timeClip_toDouble_ge (q : ℚ) (e : Int) (h : timeClip (JSNumber.toDouble q) = some e)
    (K : Int) (hK : (K : ℚ) ≤ q) : K ≤ e := by
  obtain ⟨he, hclip⟩ := timeClip_toDouble q e h
  obtain ⟨hlo, hhi⟩ := abs_le.mp hclip
  rw [he]
  by_cases h1 : K ≤ 2 ^ 53
  · by_cases h2 : -(2 ^ 53) ≤ K
    · exact toIntegerOrInfinity_ge _ K (nearest_ge_int q K h2 h1 hK)
    · apply toIntegerOrInfinity_ge
      have : (K : ℚ) ≤ ((-(2 ^ 53) : Int) : ℚ) := by exact_mod_cast (show K ≤ -(2 ^ 53) by omega)
      push_cast at this
      linarith
  · exfalso
    have h3 : ((2 ^ 53 : Int) : ℚ) ≤ q := by
      have : ((2 ^ 53 : Int) : ℚ) ≤ (K : ℚ) := by exact_mod_cast (show (2 ^ 53 : Int) ≤ K by omega)
      linarith
    have h4 := nearest_ge_int q (2 ^ 53) (by decide) (le_refl _) h3
    push_cast at h4
    linarith

theorem timeClip_toDouble_le (q : ℚ) (e : Int) (h : timeClip (JSNumber.toDouble q) = some e)
    (K : Int) (hK : q ≤ (K : ℚ)) : e ≤ K := by
  obtain ⟨he, hclip⟩ := timeClip_toDouble q e h
  obtain ⟨hlo, hhi⟩ := abs_le.mp hclip
  rw [he]
  by_cases h1 : -(2 ^ 53) ≤ K
  · by_cases h2 : K ≤ 2 ^ 53
    · exact toIntegerOrInfinity_le _ K (nearest_le_int q K h1 h2 hK)
    · apply toIntegerOrInfinity_le
      have : ((2 ^ 53 : Int) : ℚ) ≤ (K : ℚ) := by exact_mod_cast (show (2 ^ 53 : Int) ≤ K by omega)
      push_cast at this
      linarith
  · exfalso
    have h3 : q ≤ ((-(2 ^ 53) : Int) : ℚ) := by
      have : (K : ℚ) ≤ ((-(2 ^ 53) : Int) : ℚ) := by
        exact_mod_cast (show K ≤ -(2 ^ 53) by omega)
      linarith
    have h4 := nearest_le_int q (-(2 ^ 53)) (le_refl _) (by decide) h3
    push_cast at h4
    linarith

theorem timeClip_toDouble_int (S e : Int) (h : timeClip (JSNumber.toDouble (S : ℚ)) = some e) :
    e = S :=
  le_antisymm (timeClip_toDouble_le _ e h S (le_refl _))
    (timeClip_toDouble_ge _ e h S (le_refl _))

/-! ### Create requests: validation and the appended record -/

theorem generate_fin (codes : List CodeRecord) (now : Int) (clock : Nat → Nat → Int)
    (created : Int) (rand : Nat → Nat) (fuel : Nat)
    (q : ℚ) (u : String) (note : JSNote) (hq : 0 < q) (hu : u = "minutes" ∨ u = "hours") :
    generate codes now clock created rand fuel ⟨.fin q, u, note⟩ =
      match timeClip ((JSNumber.fin now).add (durationMs (.fin q) u)) with
      | none => some (.thrown "RangeError: Invalid time value", codes)
      | some expiresAt =>
        match genCode codes clock rand fuel with
        | none => none
        | some code =>
          some (.sent ⟨200, true, none, some code, some expiresAt,
            some ("/scanner.html?code=" ++ code)⟩,
            codes ++ [⟨code, noteText note, created, expiresAt, false⟩]) := by
  have hq0 : q ≠ 0 := ne_of_gt hq
  have hq1 : ¬ q ≤ 0 := not_le.mpr hq
  rcases hu with rfl | rfl
  · simp [generate, JSNumber.truthy, JSNumber.leZero, hq0, hq1]
  · simp [generate, JSNumber.truthy, JSNumber.leZero, hq0, hq1]

theorem generate_bad_duration (codes : List CodeRecord) (now : Int)
    (clock : Nat → Nat → Int) (created : Int) (rand : Nat → Nat)
    (fuel : Nat) (d : JSNumber) (u : String) (note : JSNote)
    (hd : d = .nan ∨ d = .negInf ∨ ∃ q, d = .fin q ∧ q ≤ 0) :
    generate codes now clock created rand fuel ⟨d, u, note⟩ =
      some (.sent ⟨400, false, some "Duration mesti nombor > 0", none, none, none⟩, codes) := by
  rcases hd with rfl | rfl | ⟨q, rfl, hq⟩
  · simp [generate, JSNumber.truthy]
  · simp [generate, JSNumber.truthy, JSNumber.leZero]
  · simp [generate, JSNumber.truthy, JSNumber.leZero, hq]

theorem generate_bad_unit (codes : List CodeRecord) (now : Int)
    (clock : Nat → Nat → Int) (created : Int) (rand : Nat → Nat)
    (fuel : Nat) (d : JSNumber) (u : String) (note : JSNote)
    (hu : u ≠ "minutes" ∧ u ≠ "hours") :
    ∃ r, generate codes now clock created rand fuel ⟨d, u, note⟩ = some (.sent r, codes) ∧
      r.status = 400 ∧ r.ok = false := by
  by_cases hd : (!d.truthy || d.leZero) = true
  · refine ⟨⟨400, false, some "Duration mesti nombor > 0", none, none, none⟩, ?_, rfl, rfl⟩
    simp only [generate, hd, if_true]
  · refine ⟨⟨400, false, some "Unit mesti minutes/hours", none, none, none⟩, ?_, rfl, rfl⟩
    simp only [generate, hd]
    simp [hu.1, hu.2]

theorem durationMs_posInf (u : String) : durationMs .posInf u = .posInf := by
  unfold durationMs
  split <;> simp [JSNumber.mul, JSNumber.sign]

theorem generate_posInf (codes : List CodeRecord) (now : Int)
    (clock : Nat → Nat → Int) (created : Int) (rand : Nat → Nat)
    (fuel : Nat) (u : String) (note : JSNote) (hu : u = "minutes" ∨ u = "hours") :
    generate codes now clock created rand fuel ⟨.posInf, u, note⟩ =
      some (.thrown "RangeError: Invalid time value", codes) := by
  rcases hu with rfl | rfl
  · simp [generate, JSNumber.truthy, JSNumber.leZero, durationMs_posInf, JSNumber.add,
      timeClip]
  · simp [generate, JSNumber.truthy, JSNumber.leZero, durationMs_posInf, JSNumber.add,
      timeClip]

theorem generate_created (codes : List CodeRecord) (now : Int)
    (clock : Nat → Nat → Int) (created : Int) (rand : Nat → Nat)
    (fuel : Nat) (body : CreateBody) (resp : CreateResponse) (codes2 : List CodeRecord)
    (h : generate codes now clock created rand fuel body = some (.sent resp, codes2))
    (hok : resp.ok = true) :
    ∃ q code exp, body.duration = .fin q ∧ 0 < q ∧
      (body.unit = "minutes" ∨ body.unit = "hours") ∧
      timeClip ((JSNumber.fin now).add (durationMs body.duration body.unit)) = some exp ∧
      genCode codes clock rand fuel = some code ∧
      resp = ⟨200, true, none, some code, some exp, some ("/scanner.html?code=" ++ code)⟩ ∧
      codes2 = codes ++ [⟨code, noteText body.note, created, exp, false⟩] := by
  obtain ⟨d, u, note⟩ := body
  by_cases hu : u = "minutes" ∨ u = "hours"
  · cases d with
    | nan =>
      rw [generate_bad_duration codes now clock created rand fuel _ u note (Or.inl rfl)] at h
      simp only [Option.some.injEq, Prod.mk.injEq, Outcome.sent.injEq] at h
      rw [← h.1] at hok
      cases hok
    | negInf =>
      rw [generate_bad_duration codes now clock created rand fuel _ u note
        (Or.inr (Or.inl rfl))] at h
      simp only [Option.some.injEq, Prod.mk.injEq, Outcome.sent.injEq] at h
      rw [← h.1] at hok
      cases hok
    | posInf =>
      rw [generate_posInf codes now clock created rand fuel u note hu] at h
      simp at h
    | fin q =>
      by_cases hq : q ≤ 0
      · rw [generate_bad_duration codes now clock created rand fuel _ u note
          (Or.inr (Or.inr ⟨q, rfl, hq⟩))] at h
        simp only [Option.some.injEq, Prod.mk.injEq, Outcome.sent.injEq] at h
        rw [← h.1] at hok
        cases hok
      · have hq2 : 0 < q := not_le.mp hq
        rw [generate_fin codes now clock created rand fuel q u note hq2 hu] at h
        cases hclip : timeClip ((JSNumber.fin now).add (durationMs (.fin q) u)) with
        | none =>
          rw [hclip] at h
          simp at h
        | some exp =>
          rw [hclip] at h
          cases hgen : genCode codes clock rand fuel with
          | none =>
            rw [hgen] at h
            cases h
          | some code =>
            rw [hgen] at h
            simp only [Option.some.injEq, Prod.mk.injEq, Outcome.sent.injEq] at h
            exact ⟨q, code, exp, rfl, hq2, hu, rfl, rfl, h.1.symm, h.2.symm⟩
  · have hu2 : u ≠ "minutes" ∧ u ≠ "hours" := by
      constructor
      · intro hm
        exact hu (Or.inl hm)
      · intro hh
        exact hu (Or.inr hh)
    obtain ⟨r, hr, _, hr2⟩ := generate_bad_unit codes now clock created rand fuel d u note hu2
    rw [hr] at h
    simp only [Option.some.injEq, Prod.mk.injEq, Outcome.sent.injEq] at h
    rw [← h.1, hr2] at hok
    cases hok

theorem mul_fin_nonneg (a b : ℚ) (ha : 0 ≤ a) (hb : 0 ≤ b) :
    (JSNumber.fin a).mul (.fin b) = .posInf ∨
      ∃ v, (JSNumber.fin a).mul (.fin b) = .fin v ∧ 0 ≤ v := by
  have : (JSNumber.fin a).mul (.fin b) = JSNumber.toDouble (a * b) := rfl
  rw [this]
  exact toDouble_nonneg (a * b) (mul_nonneg ha hb)

theorem posInf_mul_pos (b : ℚ) (hb : 0 < b) : JSNumber.posInf.mul (.fin b) = .posInf := by
  simp [JSNumber.mul, JSNumber.sign, hb]

theorem durationMs_cases (q : ℚ) (u : String) (hq : 0 < q) :
    durationMs (.fin q) u = .posInf ∨ ∃ m, durationMs (.fin q) u = .fin m ∧ 0 ≤ m := by
  have step : ∀ (x : JSNumber) (b : ℚ), 0 < b →
      (x = .posInf ∨ ∃ v, x = .fin v ∧ 0 ≤ v) →
      (x.mul (.fin b) = .posInf ∨ ∃ v, x.mul (.fin b) = .fin v ∧ 0 ≤ v) := by
    intro x b hb hx
    rcases hx with rfl | ⟨v, rfl, hv⟩
    · exact Or.inl (posInf_mul_pos b hb)
    · exact mul_fin_nonneg v b hv (le_of_lt hb)
  have h0 : (JSNumber.fin q = .posInf ∨ ∃ v, JSNumber.fin q = .fin v ∧ 0 ≤ v) :=
    Or.inr ⟨q, rfl, le_of_lt hq⟩
  unfold durationMs
  split
  · exact step _ 1000 (by norm_num) (step _ 60 (by norm_num) h0)
  · exact step _ 1000 (by norm_num) (step _ 60 (by norm_num) (step _ 60 (by norm_num) h0))

theorem durationMs_int (n : Int) (u : String) (hn : 0 < n)
    (hbound : n * (if u = "minutes" then 60000 else 3600000) ≤ 2 ^ 53) :
    durationMs (.fin (n : ℚ)) u =
      .fin ((n * (if u = "minutes" then 60000 else 3600000) : Int) : ℚ) := by
  have mulInt : ∀ (a b : Int), -(2 ^ 53) ≤ a * b → a * b ≤ 2 ^ 53 →
      (JSNumber.fin (a : ℚ)).mul (.fin (b : ℚ)) = .fin ((a * b : Int) : ℚ) := by
    intro a b h1 h2
    have : (JSNumber.fin (a : ℚ)).mul (.fin (b : ℚ)) = JSNumber.toDouble ((a : ℚ) * (b : ℚ)) :=
      rfl
    rw [this, ← Int.cast_mul]
    exact toDouble_int (a * b) h1 h2
  unfold durationMs
  by_cases hu : u = "minutes"
  · rw [if_pos hu] at hbound
    rw [if_pos hu, if_pos hu]
    have e60 : (JSNumber.fin (60 : ℚ)) = .fin ((60 : Int) : ℚ) := by norm_num
    have e1000 : (JSNumber.fin (1000 : ℚ)) = .fin ((1000 : Int) : ℚ) := by norm_num
    rw [e60, e1000, mulInt n 60 (by omega) (by omega), mulInt (n * 60) 1000 (by omega) (by omega)]
    congr 2
    ring
  · rw [if_neg hu] at hbound
    rw [if_neg hu, if_neg hu]
    have e60 : (JSNumber.fin (60 : ℚ)) = .fin ((60 : Int) : ℚ) := by norm_num
    have e1000 : (JSNumber.fin (1000 : ℚ)) = .fin ((1000 : Int) : ℚ) := by norm_num
    rw [e60, e1000, mulInt n 60 (by omega) (by omega), mulInt (n * 60) 60 (by omega) (by omega),
      mulInt (n * 60 * 60) 1000 (by omega) (by omega)]
    congr 2
    ring

theorem expiry_of_fin (now : Int) (m : ℚ) (exp : Int)
    (h : timeClip ((JSNumber.fin now).add (.fin m)) = some exp) :
    timeClip (JSNumber.toDouble ((now : ℚ) + m)) = some exp :=
  h

theorem toIntegerOrInfinity_int (S : Int) : toIntegerOrInfinity (S : ℚ) = S := by
  unfold toIntegerOrInfinity
  split
  · exact Int.floor_intCast S
  · exact Int.ceil_intCast S

theorem timeClip_int (S : Int) (h : |S| ≤ 8640000000000000) :
    timeClip (JSNumber.toDouble (S : ℚ)) = some S := by
  obtain ⟨h1, h2⟩ := abs_le.mp h
  rw [toDouble_int S (by omega) (by omega)]
  have hq : ¬ (8640000000000000 : ℚ) < |(S : ℚ)| := by
    rw [not_lt]
    have : |(S : ℚ)| = ((|S| : Int) : ℚ) := by push_cast; rfl
    rw [this]
    exact_mod_cast h
  simp only [timeClip, if_neg hq, toIntegerOrInfinity_int]

theorem expiry_cases (now : Int) (q : ℚ) (u : String) (exp : Int) (hq : 0 < q)
    (h : timeClip ((JSNumber.fin now).add (durationMs (.fin q) u)) = some exp) :
    ∃ m, durationMs (.fin q) u = .fin m ∧ 0 ≤ m ∧
      timeClip (JSNumber.toDouble ((now : ℚ) + m)) = some exp := by
  rcases durationMs_cases q u hq with hinf | ⟨m, hm, hm0⟩
  · rw [hinf] at h
    simp [JSNumber.add, timeClip] at h
  · rw [hm] at h
    exact ⟨m, hm, hm0, h⟩

/-- C5, the failing input: a create request whose duration is `+Infinity` and
whose unit is `minutes` or `hours` passes both guards of the handler; the
handler then throws while it formats the expiry date, so no 400 rejection is
sent. The collection is left as it was. -/
theorem generate_infinite_duration_throws (codes : List CodeRecord) (now : Int)
    (clock : Nat → Nat → Int) (created : Int) (rand : Nat → Nat) (fuel : Nat)
    (note : JSNote) :
    generate codes now clock created rand fuel ⟨.posInf, "minutes", note⟩ =
      some (.thrown "RangeError: Invalid time value", codes) ∧
    generate codes now clock created rand fuel ⟨.posInf, "hours", note⟩ =
      some (.thrown "RangeError: Invalid time value", codes) :=
  ⟨generate_posInf codes now clock created rand fuel "minutes" note (Or.inl rfl),
   generate_posInf codes now clock created rand fuel "hours" note (Or.inr rfl)⟩

/-- C6 as stated fails: a create request for `2 ^ -20` minutes (0.057 ms), whose
`Date.now()` reads `1000` and whose later `new Date()` reads `1001`, is accepted
and appends a record whose `expiresAt` is `1000` and whose `createdAt` is
`1001`. -/
theorem generate_expiresAt_before_createdAt :
    ∃ resp r, generate [] 1000 (fun _ _ => 1000) 1001 (fun _ => 7) 1
          ⟨.fin (1 / 1048576), "minutes", .undefined⟩
        = some (.sent resp, [] ++ [r]) ∧
      resp.ok = true ∧ ¬ (r.expiresAt > r.createdAt) ∧ r.expiresAt < r.createdAt :=
  ⟨⟨200, true, none, some "000007", some 1000, some "/scanner.html?code=000007"⟩,
   ⟨"000007", "", 1001, 1000, false⟩, by decide!, rfl, by decide, by decide⟩

/-- C6, amended: every create request answered `ok: true` appends one record
whose `createdAt` is the later reading `created` of the clock and whose
`expiresAt` is not before `now`, the reading from which the expiry is computed,
and is after `now` when the duration `ms` computed by the handler is at least
one millisecond. `expiresAt > createdAt` holds whenever `ms` exceeds by at
least one millisecond the time that passed between the two readings. For a
whole number of minutes or hours `ms` is that number times 60000 or 3600000. -/
theorem generate_expiresAt_bounds (codes : List CodeRecord) (now : Int)
    (clock : Nat → Nat → Int) (created : Int) (rand : Nat → Nat) (fuel : Nat)
    (body : CreateBody) (resp : CreateResponse) (codes2 : List CodeRecord)
    (h : generate codes now clock created rand fuel body = some (.sent resp, codes2))
    (hok : resp.ok = true) :
    ∃ m r, durationMs body.duration body.unit = .fin m ∧ 0 ≤ m ∧
      codes2 = codes ++ [r] ∧ r.createdAt = created ∧
      r.expiresAt ≥ now ∧
      (1 ≤ m → r.expiresAt > now) ∧
      (((r.createdAt - now + 1 : Int) : ℚ) ≤ m → r.expiresAt > r.createdAt) ∧
      (∀ n : Int, body.duration = .fin (n : ℚ) →
        n * (if body.unit = "minutes" then 60000 else 3600000) ≤ 2 ^ 53 →
        m = ((n * (if body.unit = "minutes" then 60000 else 3600000) : Int) : ℚ)) := by
  obtain ⟨q, code, exp, hd, hq, _, hclip, _, _, hcodes2⟩ :=
    generate_created codes now clock created rand fuel body resp codes2 h hok
  rw [hd] at hclip
  obtain ⟨m, hm, hm0, hexp⟩ := expiry_cases now q body.unit exp hq hclip
  refine ⟨m, _, by rw [hd]; exact hm, hm0, hcodes2, rfl, ?_, ?_, ?_, ?_⟩
  · exact timeClip_toDouble_ge _ exp hexp now (by linarith)
  · intro h1
    have := timeClip_toDouble_ge _ exp hexp (now + 1) (by push_cast; linarith)
    show exp > now
    omega
  · intro h1
    have := timeClip_toDouble_ge _ exp hexp (created + 1) (by
      push_cast at h1 ⊢
      linarith)
    show exp > created
    omega
  · intro n hn hbound
    rw [hd] at hn
    simp only [JSNumber.fin.injEq] at hn
    have hnpos : 0 < n := by
      rw [hn] at hq
      exact_mod_cast hq
    have := durationMs_int n body.unit hnpos hbound
    rw [← hn, hm] at this
    simpa using this

/-- C6, amended, on a request for 5 minutes whose `Date.now()` reads `1000` and
whose `new Date()` reads `1003`: the request is answered `ok: true` and the
appended record expires after it was created. -/
theorem generate_expiresAt_bounds_witness :
    generate [] 1000 (fun _ _ => 1001) 1003 (fun _ => 7) 1 ⟨.fin 5, "minutes", .undefined⟩
      = some (.sent ⟨200, true, none, some "000007", some 301000,
          some "/scanner.html?code=000007"⟩, [⟨"000007", "", 1003, 301000, false⟩]) ∧
    ∃ m r, durationMs (JSNumber.fin 5) "minutes" = .fin m ∧ 0 ≤ m ∧
      [(⟨"000007", "", 1003, 301000, false⟩ : CodeRecord)] = [] ++ [r] ∧
      r.createdAt = 1003 ∧ r.expiresAt ≥ 1000 ∧ (1 ≤ m → r.expiresAt > 1000) ∧
      (((r.createdAt - 1000 + 1 : Int) : ℚ) ≤ m → r.expiresAt > r.createdAt) ∧
      (∀ n : Int, JSNumber.fin 5 = .fin (n : ℚ) →
        n * (if "minutes" = "minutes" then 60000 else 3600000) ≤ 2 ^ 53 →
        m = ((n * (if "minutes" = "minutes" then 60000 else 3600000) : Int) : ℚ)) :=
  ⟨by decide!,
   generate_expiresAt_bounds [] 1000 (fun _ _ => 1001) 1003 (fun _ => 7) 1
    ⟨.fin 5, "minutes", .undefined⟩
    ⟨200, true, none, some "000007", some 301000, some "/scanner.html?code=000007"⟩
    [⟨"000007", "", 1003, 301000, false⟩] (by decide!) rfl⟩

/-- C7 as stated fails on three counts. A request for `2 ^ -20` minutes with the
number `0` as note, whose `Date.now()` reads `1000` and whose later `new Date()`
reads `1003`, stores `createdAt = 1003` (not `1000`), `expiresAt = 1000` (not
`1000 + 60000 / 1048576`) and the empty note (not the text `0`). A request for
`0.003` hours whose clock reads `1000` throughout stores `expiresAt = 11799`,
although `now + durationValue * 3600000` is above `11800`: the product and the
sum are rounded to doubles before the fraction is dropped. -/
theorem generate_expiresAt_not_exact :
    generate [] 1000 (fun _ _ => 1000) 1003 (fun _ => 7) 1
        ⟨.fin (1 / 1048576), "minutes", .other false "0"⟩
      = some (.sent ⟨200, true, none, some "000007", some 1000,
          some "/scanner.html?code=000007"⟩, [⟨"000007", "", 1003, 1000, false⟩]) ∧
    ((1000 : Int) : ℚ) ≠ (1000 : Int) + (1 / 1048576) * 60000 ∧
    JSNumber.toDouble (3 / 1000) = .fin (nearest (3 / 1000)) ∧
    generate [] 1000 (fun _ _ => 1000) 1000 (fun _ => 7) 1
        ⟨.fin (nearest (3 / 1000)), "hours", .undefined⟩
      = some (.sent ⟨200, true, none, some "000007", some 11799,
          some "/scanner.html?code=000007"⟩, [⟨"000007", "", 1000, 11799, false⟩]) ∧
    (11800 : ℚ) < (1000 : Int) + nearest (3 / 1000) * 3600000 :=
  ⟨by decide!, by norm_num, by decide!, by decide!, by decide!⟩

/-- C7, amended: a create request answered with `ok: true` leaves the old
collection followed by exactly one new record. The record has the returned
code, the note `(note || '').toString()` (the note itself when it is a string,
the empty string when it is absent), `revoked = false`, `createdAt` equal to
the reading `created` of the clock taken when the record is built, and
`expiresAt` equal to the time value of `new Date(now + ms)`, where `now` is the
earlier reading of the clock, `ms` is the product computed by the handler in
double arithmetic and the sum is rounded to a double before its fraction is
dropped. For a whole number `n` of minutes or hours with `n * unitMillis` up to
`2 ^ 53` this is exactly `now + n * unitMillis` (5 minutes give
`now + 300000`). The response carries the same code and `expiresAt`. Conversely
a request with a positive duration and a valid unit whose expiry is a valid
date is answered so as soon as `genCode` returns. -/
theorem generate_spec (codes : List CodeRecord) (now : Int) (clock : Nat → Nat → Int)
    (created : Int) (rand : Nat → Nat) (fuel : Nat) (body : CreateBody) :
    (∀ (resp : CreateResponse) (codes2 : List CodeRecord),
      generate codes now clock created rand fuel body = some (.sent resp, codes2) →
      resp.ok = true →
      ∃ q code exp m, body.duration = .fin q ∧ 0 < q ∧
        (body.unit = "minutes" ∨ body.unit = "hours") ∧
        durationMs body.duration body.unit = .fin m ∧ 0 ≤ m ∧
        timeClip (JSNumber.toDouble ((now : ℚ) + m)) = some exp ∧
        (∀ n : Int, q = (n : ℚ) →
          n * (if body.unit = "minutes" then 60000 else 3600000) ≤ 2 ^ 53 →
          exp = now + n * (if body.unit = "minutes" then 60000 else 3600000)) ∧
        codes2 = codes ++ [⟨code, noteText body.note, created, exp, false⟩] ∧
        (body.note = .undefined → noteText body.note = "") ∧
        (∀ s, body.note = .str s → noteText body.note = s) ∧
        resp = ⟨200, true, none, some code, some exp,
          some ("/scanner.html?code=" ++ code)⟩) ∧
    (∀ (q : ℚ) (code : String) (exp : Int), body.duration = .fin q → 0 < q →
      (body.unit = "minutes" ∨ body.unit = "hours") →
      timeClip ((JSNumber.fin now).add (durationMs body.duration body.unit)) = some exp →
      genCode codes clock rand fuel = some code →
      generate codes now clock created rand fuel body =
        some (.sent ⟨200, true, none, some code, some exp,
          some ("/scanner.html?code=" ++ code)⟩,
          codes ++ [⟨code, noteText body.note, created, exp, false⟩])) ∧
    (∀ (n : Int) (code : String), body.duration = .fin (n : ℚ) → 0 < n →
      (body.unit = "minutes" ∨ body.unit = "hours") →
      n * (if body.unit = "minutes" then 60000 else 3600000) ≤ 2 ^ 53 →
      |now + n * (if body.unit = "minutes" then 60000 else 3600000)| ≤ 8640000000000000 →
      genCode codes clock rand fuel = some code →
      generate codes now clock created rand fuel body =
        some (.sent ⟨200, true, none, some code,
          some (now + n * (if body.unit = "minutes" then 60000 else 3600000)),
          some ("/scanner.html?code=" ++ code)⟩,
          codes ++ [⟨code, noteText body.note, created,
            now + n * (if body.unit = "minutes" then 60000 else 3600000), false⟩])) := by
  refine ⟨?_, ?_, ?_⟩
  · intro resp codes2 h hok
    obtain ⟨q, code, exp, hd, hq, hu, hclip, _, hresp, hcodes2⟩ :=
      generate_created codes now clock created rand fuel body resp codes2 h hok
    rw [hd] at hclip
    obtain ⟨m, hm, hm0, hexp⟩ := expiry_cases now q body.unit exp hq hclip
    refine ⟨q, code, exp, m, hd, hq, hu, by rw [hd]; exact hm, hm0, hexp, ?_, hcodes2,
      ?_, ?_, hresp⟩
    · intro n hn hbound
      have hnpos : 0 < n := by
        rw [hn] at hq
        exact_mod_cast hq
      have hdur := durationMs_int n body.unit hnpos hbound
      rw [← hn, hm] at hdur
      simp only [JSNumber.fin.injEq] at hdur
      rw [hdur, ← Int.cast_add] at hexp
      exact timeClip_toDouble_int _ exp hexp
    · intro hnote
      rw [hnote]
      rfl
    · intro s hnote
      rw [hnote]
      exact orEmpty_eq s
  · intro q code exp hd hq hu hclip hgen
    obtain ⟨d, u, note⟩ := body
    simp only at hd hu hclip
    subst hd
    rw [generate_fin codes now clock created rand fuel q u note hq hu, hclip, hgen]
  · intro n code hd hn hu hbound hrange hgen
    obtain ⟨d, u, note⟩ := body
    simp only at hd hu hbound hrange
    subst hd
    have hq : (0 : ℚ) < (n : ℚ) := by exact_mod_cast hn
    have hclip : timeClip ((JSNumber.fin now).add (durationMs (.fin (n : ℚ)) u)) =
        some (now + n * (if u = "minutes" then 60000 else 3600000)) := by
      rw [durationMs_int n u hn hbound]
      have : (JSNumber.fin (now : ℚ)).add
          (.fin ((n * (if u = "minutes" then 60000 else 3600000) : Int) : ℚ)) =
          JSNumber.toDouble
            (((now + n * (if u = "minutes" then 60000 else 3600000) : Int)) : ℚ) := by
        rw [Int.cast_add]
        rfl
      rw [this]
      exact timeClip_int _ hrange
    rw [generate_fin codes now clock created rand fuel (n : ℚ) u note hq hu, hclip, hgen]

/-- C7, amended, on a request for 5 minutes whose `Date.now()` reads `1000` and
whose `new Date()` reads `1002`, on the empty collection with first draw `7`:
the record expires at `1000 + 300000` and is created at `1002`. -/
theorem generate_spec_witness :
    generate [] 1000 (fun _ _ => 1001) 1002 (fun _ => 7) 1 ⟨.fin ((5 : Int) : ℚ), "minutes", .str "door"⟩ =
      some (.sent ⟨200, true, none, some "000007",
          some (1000 + 5 * (if "minutes" = "minutes" then 60000 else 3600000)),
          some ("/scanner.html?code=" ++ "000007")⟩,
        [] ++ [⟨"000007", "door", 1002,
          1000 + 5 * (if "minutes" = "minutes" then 60000 else 3600000), false⟩]) ∧
    (1000 + 5 * (if "minutes" = "minutes" then 60000 else 3600000) : Int) = 301000 :=
  ⟨(generate_spec [] 1000 (fun _ _ => 1001) 1002 (fun _ => 7) 1
      ⟨.fin ((5 : Int) : ℚ), "minutes", .str "door"⟩).2.2 5 "000007" rfl
      (by decide) (Or.inl rfl) (by decide) (by decide) (by decide),
   by decide⟩

/-! ### The candidate code of a draw -/

theorem toDigitsCore_append (fuel n : Nat) (ds : List Char) :
    Nat.toDigitsCore 10 fuel n ds = Nat.toDigitsCore 10 fuel n [] ++ ds := by
  induction fuel generalizing n ds with
  | zero => simp [Nat.toDigitsCore]
  | succ fuel ih =>
    simp only [Nat.toDigitsCore]
    split
    · simp
    · rw [ih (n / 10) (Nat.digitChar (n % 10) :: ds), ih (n / 10) [Nat.digitChar (n % 10)]]
      simp

theorem fixedDigits_zero (k : Nat) : fixedDigits k 0 = List.replicate k '0' := by
  induction k with
  | zero => rfl
  | succ k ih =>
    simp only [fixedDigits, Nat.zero_div, Nat.zero_mod, ih]
    rw [show [Nat.digitChar 0] = List.replicate 1 '0' from rfl, ← List.replicate_add]

theorem fixedDigits_length (k n : Nat) : (fixedDigits k n).length = k := by
  induction k generalizing n with
  | zero => rfl
  | succ k ih => simp [fixedDigits, ih]

theorem toDigitsCore_pad (k : Nat) :
    ∀ fuel n : Nat, n < 10 ^ (k + 1) → n < fuel →
      List.replicate (k + 1 - (Nat.toDigitsCore 10 fuel n []).length) '0'
        ++ Nat.toDigitsCore 10 fuel n [] = fixedDigits (k + 1) n := by
  induction k with
  | zero =>
    intro fuel n hn hfuel
    obtain ⟨f, rfl⟩ : ∃ f, fuel = f + 1 := ⟨fuel - 1, by omega⟩
    have h0 : n / 10 = 0 := by omega
    simp [Nat.toDigitsCore, h0, fixedDigits]
  | succ k ih =>
    intro fuel n hn hfuel
    obtain ⟨f, rfl⟩ : ∃ f, fuel = f + 1 := ⟨fuel - 1, by omega⟩
    simp only [Nat.toDigitsCore]
    by_cases h0 : n / 10 = 0
    · rw [if_pos h0]
      simp only [fixedDigits, h0, Nat.zero_div, Nat.zero_mod, List.length_singleton]
      have := fixedDigits_zero k
      simp only [Nat.add_sub_cancel]
      rw [this]
      rw [show [Nat.digitChar 0] = List.replicate 1 '0' from rfl, ← List.replicate_add]
    · rw [if_neg h0, toDigitsCore_append]
      have hlt : n / 10 < 10 ^ (k + 1) := by
        rw [Nat.div_lt_iff_lt_mul (by decide)]
        rw [pow_succ] at hn
        exact hn
      have hf : n / 10 < f := by omega
      have := ih f (n / 10) hlt hf
      rw [show fixedDigits (k + 1 + 1) n
        = fixedDigits (k + 1) (n / 10) ++ [Nat.digitChar (n % 10)] from rfl, ← this]
      simp only [List.length_append, List.length_singleton, List.append_assoc]
      congr 2
      omega

theorem candidate_data (n : Nat) (hn : n < 1000000) :
    (candidate n).data = fixedDigits 6 n := by
  have h := toDigitsCore_pad 5 (n + 1) n (by simpa using hn) (Nat.lt_succ_self n)
  simpa [candidate, padStart, toString, Nat.repr, Nat.toDigits, List.asString,
    String.length] using h

theorem digitChar_isDigit (d : Nat) (hd : d < 10) :
    (Nat.digitChar d).isDigit = true ∧ (Nat.digitChar d).toNat - '0'.toNat = d := by
  interval_cases d <;> exact ⟨by decide, by decide⟩

theorem fixedDigits_isDigit (k n : Nat) : ∀ c ∈ fixedDigits k n, c.isDigit = true := by
  induction k generalizing n with
  | zero =>
    intro c hc
    cases hc
  | succ k ih =>
    intro c hc
    simp only [fixedDigits, List.mem_append, List.mem_singleton] at hc
    rcases hc with hc | rfl
    · exact ih (n / 10) c hc
    · exact (digitChar_isDigit (n % 10) (Nat.mod_lt n (by decide))).1

theorem decimalValue_fixedDigits (k n : Nat) :
    decimalValue (fixedDigits k n) = n % 10 ^ k := by
  induction k generalizing n with
  | zero => simp [fixedDigits, decimalValue, Nat.mod_one]
  | succ k ih =>
    have hstep : decimalValue (fixedDigits (k + 1) n)
        = 10 * decimalValue (fixedDigits k (n / 10))
          + ((Nat.digitChar (n % 10)).toNat - '0'.toNat) := by
      simp [fixedDigits, decimalValue, List.foldl_append]
    rw [hstep, ih (n / 10), (digitChar_isDigit (n % 10) (Nat.mod_lt n (by decide))).2,
      pow_succ', Nat.mod_mul]
    omega

/-- C8: for every draw `n` with `n < 1000000` the candidate
`n.toString().padStart(6, '0')` has length 6, consists of decimal digits only
and denotes `n`, so that different draws give different candidates; and every
code returned by a create request whose draws are below `1000000` has length 6
and consists of decimal digits only. -/
theorem candidate_spec :
    (∀ n : Nat, n < 1000000 →
      (candidate n).length = 6 ∧
      (∀ c ∈ (candidate n).data, c.isDigit = true) ∧
      decimalValue (candidate n).data = n ∧
      ∀ m : Nat, m < 1000000 → candidate m = candidate n → m = n) ∧
    (∀ (codes : List CodeRecord) (now : Int) (clock : Nat → Nat → Int) (created : Int)
        (rand : Nat → Nat) (fuel : Nat)
        (body : CreateBody) (resp : CreateResponse) (codes2 : List CodeRecord)
        (code : String),
      (∀ i, rand i < 1000000) →
      generate codes now clock created rand fuel body = some (.sent resp, codes2) →
      resp.code = some code →
      code.length = 6 ∧ ∀ c ∈ code.data, c.isDigit = true) := by
  have hval : ∀ n : Nat, n < 1000000 → decimalValue (candidate n).data = n := by
    intro n hn
    rw [candidate_data n hn, decimalValue_fixedDigits]
    exact Nat.mod_eq_of_lt (by simpa using hn)
  have hshape : ∀ n : Nat, n < 1000000 →
      (candidate n).length = 6 ∧ ∀ c ∈ (candidate n).data, c.isDigit = true := by
    intro n hn
    constructor
    · rw [String.length, candidate_data n hn, fixedDigits_length]
    · rw [candidate_data n hn]
      exact fixedDigits_isDigit 6 n
  constructor
  · intro n hn
    refine ⟨(hshape n hn).1, (hshape n hn).2, hval n hn, ?_⟩
    intro m hm heq
    rw [← hval m hm, ← hval n hn, heq]
  · intro codes now clock created rand fuel body resp codes2 code hrand hgen hcode
    have hok : resp.ok = true := by
      by_contra hno
      obtain ⟨d, u, note⟩ := body
      unfold generate at hgen
      simp only at hgen
      split at hgen
      · simp only [Option.some.injEq, Prod.mk.injEq, Outcome.sent.injEq] at hgen
        rw [← hgen.1] at hcode
        cases hcode
      · split at hgen
        · simp only [Option.some.injEq, Prod.mk.injEq, Outcome.sent.injEq] at hgen
          rw [← hgen.1] at hcode
          cases hcode
        · split at hgen
          · simp at hgen
          · split at hgen
            · cases hgen
            · simp only [Option.some.injEq, Prod.mk.injEq, Outcome.sent.injEq] at hgen
              rw [← hgen.1] at hno
              exact hno rfl
    obtain ⟨q, c0, _, _, _, _, _, hc0, hresp, _⟩ :=
      generate_created codes now clock created rand fuel body resp codes2 hgen hok
    rw [hresp] at hcode
    simp only [Option.some.injEq] at hcode
    subst hcode
    obtain ⟨k, _, hk, _⟩ := (genCode_eq_some codes clock rand fuel c0).mp hc0
    rw [hk]
    exact hshape (rand k) (hrand k)

/-- C8 on the draws `42` and `7`: the candidates are `000042` and `000007`. -/
theorem candidate_spec_witness :
    ((candidate 42).length = 6 ∧
      (∀ c ∈ (candidate 42).data, c.isDigit = true) ∧
      decimalValue (candidate 42).data = 42 ∧
      ∀ m : Nat, m < 1000000 → candidate m = candidate 42 → m = 42) ∧
    candidate 42 = "000042" ∧
    (String.length "000007" = 6 ∧ ∀ c ∈ String.data "000007", c.isDigit = true) :=
  ⟨candidate_spec.1 42 (by decide), by decide,
   candidate_spec.2 [] 1000 (fun _ _ => 1000) 1000 (fun _ => 7) 1
     ⟨.fin 5, "minutes", .undefined⟩
     ⟨200, true, none, some "000007", some 301000, some "/scanner.html?code=000007"⟩
     [⟨"000007", "", 1000, 301000, false⟩] "000007"
     (fun _ => (by decide : 7 < 1000000)) (by decide!) rfl⟩


/-! ### Revoke requests -/

theorem setRevoked_length (l : List CodeRecord) (idx : Nat) :
    (setRevoked l idx).length = l.length := by
  induction l generalizing idx with
  | nil => rfl
  | cons c cs ih =>
    cases idx with
    | zero => rfl
    | succ idx => simp [setRevoked, ih]

theorem setRevoked_getElem? (l : List CodeRecord) (idx j : Nat) :
    (setRevoked l idx)[j]? =
      if j = idx then l[j]?.map (fun c => { c with revoked := true }) else l[j]? := by
  induction l generalizing idx j with
  | nil => simp [setRevoked]
  | cons c cs ih =>
    cases idx with
    | zero =>
      cases j with
      | zero => simp [setRevoked]
      | succ j => simp [setRevoked]
    | succ idx =>
      cases j with
      | zero => simp [setRevoked]
      | succ j => simp [setRevoked, ih]

theorem findIndex_some {α : Type} (p : α → Bool) (l : List α) (idx : Nat)
    (h : findIndex p l = some idx) :
    idx < l.length ∧ (∀ j, j < idx → ∀ a, l[j]? = some a → p a = false) ∧
      ∃ a, l[idx]? = some a ∧ p a = true := by
  induction l generalizing idx with
  | nil => simp [findIndex] at h
  | cons b bs ih =>
    cases hb : p b with
    | true =>
      simp only [findIndex, hb, if_true, Option.some.injEq] at h
      subst h
      exact ⟨by simp, fun j hj => absurd hj (Nat.not_lt_zero j), b, by simp, hb⟩
    | false =>
      simp only [findIndex, hb, Bool.false_eq_true, if_false, Option.map_eq_some'] at h
      obtain ⟨k, hk, rfl⟩ := h
      obtain ⟨h1, h2, a, ha, hpa⟩ := ih k hk
      refine ⟨by simpa using h1, ?_, a, by simpa using ha, hpa⟩
      intro j hj c hc
      cases j with
      | zero =>
        simp only [List.getElem?_cons_zero, Option.some.injEq] at hc
        rw [← hc]
        exact hb
      | succ j =>
        simp only [List.getElem?_cons_succ] at hc
        exact h2 j (by omega) c hc

/-- C9: a revoke request is answered 404 with `ok: false` exactly when no record
of the collection has the given code, and then the collection is left as it
was; in every other case the answer is `ok: true`. -/
theorem revoke_not_found_iff (codes : List CodeRecord) (code : String) :
    ((revoke codes code).1 = ⟨404, false, some "Code tidak dijumpai"⟩ ↔
      ∀ c ∈ codes, c.code ≠ code) ∧
    ((revoke codes code).1.status = 404 ↔ ∀ c ∈ codes, c.code ≠ code) ∧
    ((revoke codes code).1.ok = false ↔ ∀ c ∈ codes, c.code ≠ code) ∧
    ((∀ c ∈ codes, c.code ≠ code) → (revoke codes code).2 = codes) ∧
    ((∃ c ∈ codes, c.code = code) → (revoke codes code).1 = ⟨200, true, none⟩) := by
  by_cases hex : ∃ c ∈ codes, c.code = code
  · have hnot : ¬ ∀ c ∈ codes, c.code ≠ code := by
      intro hall
      obtain ⟨c, hc, hcode⟩ := hex
      exact hall c hc hcode
    obtain ⟨pre, entry, post, hl, hpre, hentry⟩ := exists_code_split codes code hex
    have hrev := revoke_of_split code pre entry post hpre hentry
    rw [← hl] at hrev
    rw [hrev]
    refine ⟨?_, ?_, ?_, ?_, ?_⟩
    · exact ⟨fun h => by simp at h, fun h => absurd h hnot⟩
    · exact ⟨fun h => by simp at h, fun h => absurd h hnot⟩
    · exact ⟨fun h => by simp at h, fun h => absurd h hnot⟩
    · intro h
      exact absurd h hnot
    · intro _
      rfl
  · have hnone : ∀ c ∈ codes, c.code ≠ code := fun c hc hcode => hex ⟨c, hc, hcode⟩
    rw [revoke_of_none codes code hnone]
    exact ⟨⟨fun _ => hnone, fun _ => rfl⟩, ⟨fun _ => hnone, fun _ => rfl⟩,
      ⟨fun _ => hnone, fun _ => rfl⟩, fun _ => rfl, fun h => absurd h hex⟩

/-- C9 on a one-record collection: revoking an unknown code is answered 404 and
changes nothing. -/
theorem revoke_not_found_iff_witness :
    (revoke [⟨"000001", "", 0, 5, false⟩] "000002").1
      = ⟨404, false, some "Code tidak dijumpai"⟩ ∧
    (revoke [⟨"000001", "", 0, 5, false⟩] "000002").2 = [⟨"000001", "", 0, 5, false⟩] :=
  ⟨(revoke_not_found_iff [⟨"000001", "", 0, 5, false⟩] "000002").1.mpr (by decide),
   (revoke_not_found_iff [⟨"000001", "", 0, 5, false⟩] "000002").2.2.2.1 (by decide)⟩

/-- C10: when some record has the given code, a revoke request is answered
`ok: true` and leaves a collection of the same length that agrees with the old
one at every index except the index of the first record with that code; the
record at that index keeps its code, note, `createdAt` and `expiresAt` and has
`revoked = true`. Later records with the same code are untouched. -/
theorem revoke_frame (codes : List CodeRecord) (code : String)
    (h : ∃ c ∈ codes, c.code = code) :
    (revoke codes code).1 = ⟨200, true, none⟩ ∧
    (revoke codes code).2.length = codes.length ∧
    ∃ idx entry, idx < codes.length ∧ codes[idx]? = some entry ∧ entry.code = code ∧
      (∀ j, j < idx → ∀ c, codes[j]? = some c → c.code ≠ code) ∧
      (revoke codes code).2[idx]? =
        some ⟨entry.code, entry.note, entry.createdAt, entry.expiresAt, true⟩ ∧
      ∀ j, j ≠ idx → (revoke codes code).2[j]? = codes[j]? := by
  cases hfind : findIndex (fun c : CodeRecord => c.code == code) codes with
  | none =>
    rw [findIndex_eq_none] at hfind
    obtain ⟨c, hc, hcode⟩ := h
    have := hfind c hc
    simp [hcode] at this
  | some idx =>
    obtain ⟨h1, h2, entry, hentry, hp⟩ := findIndex_some _ codes idx hfind
    have hrev : revoke codes code = (⟨200, true, none⟩, setRevoked codes idx) := by
      simp [revoke, hfind]
    rw [hrev]
    refine ⟨rfl, setRevoked_length codes idx, idx, entry, h1, hentry, by simpa using hp,
      ?_, ?_, ?_⟩
    · intro j hj c hc
      simpa using h2 j hj c hc
    · simp only [setRevoked_getElem?, if_true, hentry, Option.map_some']
    · intro j hj
      simp only [setRevoked_getElem?, if_neg hj]

/-- C10 on a collection that holds the code `000001` at indices 1 and 2: only
the record at index 1 is revoked. -/
theorem revoke_frame_witness :
    (revoke [⟨"000009", "x", 0, 5, false⟩, ⟨"000001", "a", 1, 6, false⟩,
        ⟨"000001", "b", 2, 7, false⟩] "000001").2
      = [⟨"000009", "x", 0, 5, false⟩, ⟨"000001", "a", 1, 6, true⟩,
        ⟨"000001", "b", 2, 7, false⟩] ∧
    (revoke [⟨"000009", "x", 0, 5, false⟩, ⟨"000001", "a", 1, 6, false⟩,
        ⟨"000001", "b", 2, 7, false⟩] "000001").1 = ⟨200, true, none⟩ :=
  ⟨by decide,
   (revoke_frame [⟨"000009", "x", 0, 5, false⟩, ⟨"000001", "a", 1, 6, false⟩,
        ⟨"000001", "b", 2, 7, false⟩] "000001"
      ⟨⟨"000001", "a", 1, 6, false⟩, by simp, rfl⟩).1⟩

/-! ### Revoking twice -/

theorem revoke_ok_exists (codes : List CodeRecord) (code : String)
    (h : (revoke codes code).1.ok = true) : ∃ c ∈ codes, c.code = code := by
  by_contra hex
  have hnone : ∀ c ∈ codes, c.code ≠ code := fun c hc hcode => hex ⟨c, hc, hcode⟩
  rw [revoke_of_none codes code hnone] at h
  cases h

/-- C11: revoke is idempotent. When a revoke request is answered `ok: true`, a
second revoke request with the same code is answered `ok: true` as well and
leaves the collection exactly as the first one left it; the first record with
that code has `revoked = true` after the first request and after the second. -/
theorem revoke_idempotent (codes : List CodeRecord) (code : String)
    (h : (revoke codes code).1.ok = true) :
    (revoke (revoke codes code).2 code).1 = ⟨200, true, none⟩ ∧
    (revoke (revoke codes code).2 code).2 = (revoke codes code).2 ∧
    ∃ entry, (revoke codes code).2.find? (fun c => c.code == code) = some entry ∧
      entry.revoked = true ∧
      (revoke (revoke codes code).2 code).2.find? (fun c => c.code == code) = some entry := by
  obtain ⟨pre, entry, post, hl, hpre, hentry⟩ :=
    exists_code_split codes code (revoke_ok_exists codes code h)
  subst hl
  have h1 := revoke_of_split code pre entry post hpre hentry
  have h2 := revoke_of_split code pre { entry with revoked := true } post hpre hentry
  rw [h1]
  simp only
  rw [h2]
  refine ⟨rfl, rfl, { entry with revoked := true }, ?_, rfl, ?_⟩
  · exact find?_code_split code pre _ post hpre hentry
  · exact find?_code_split code pre _ post hpre hentry

/-- C11 on a collection that holds the code `000001` twice: the second revoke
request is answered `ok: true` and changes nothing. -/
theorem revoke_idempotent_witness :
    (revoke [⟨"000001", "a", 1, 6, false⟩, ⟨"000001", "b", 2, 7, false⟩] "000001").1.ok = true ∧
    (revoke (revoke [⟨"000001", "a", 1, 6, false⟩, ⟨"000001", "b", 2, 7, false⟩]
        "000001").2 "000001").2
      = [⟨"000001", "a", 1, 6, true⟩, ⟨"000001", "b", 2, 7, false⟩] :=
  ⟨by decide,
   ((revoke_idempotent [⟨"000001", "a", 1, 6, false⟩, ⟨"000001", "b", 2, 7, false⟩] "000001"
      (by decide)).2.1).trans (by decide)⟩

/-! ### Codes and white space -/

theorem digitChar_not_whiteSpace (d : Nat) (hd : d < 10) :
    isJSWhiteSpace (Nat.digitChar d) = false := by
  interval_cases d <;> decide

theorem toDigitsCore_digits (fuel : Nat) :
    ∀ (n : Nat) (ds : List Char), (∀ c ∈ ds, ∃ d, d < 10 ∧ c = Nat.digitChar d) →
      ∀ c ∈ Nat.toDigitsCore 10 fuel n ds, ∃ d, d < 10 ∧ c = Nat.digitChar d := by
  induction fuel with
  | zero =>
    intro n ds hds c hc
    exact hds c hc
  | succ fuel ih =>
    intro n ds hds c hc
    have hcons : ∀ c ∈ Nat.digitChar (n % 10) :: ds, ∃ d, d < 10 ∧ c = Nat.digitChar d := by
      intro c hc
      rcases List.mem_cons.mp hc with rfl | hmem
      · exact ⟨n % 10, Nat.mod_lt n (by decide), rfl⟩
      · exact hds c hmem
    simp only [Nat.toDigitsCore] at hc
    split at hc
    · exact hcons c hc
    · exact ih (n / 10) _ hcons c hc

theorem candidate_digits (n : Nat) :
    ∀ c ∈ (candidate n).data, ∃ d, d < 10 ∧ c = Nat.digitChar d := by
  intro c hc
  simp only [candidate, padStart, List.mem_append, List.mem_replicate] at hc
  rcases hc with ⟨_, rfl⟩ | hc
  · exact ⟨0, by decide, rfl⟩
  · exact toDigitsCore_digits (n + 1) n [] (fun c hc => absurd hc (List.not_mem_nil c)) c hc

theorem candidate_ne_empty (n : Nat) : candidate n ≠ "" := by
  intro h
  have hlen : (candidate n).data.length = 0 := by
    rw [h]
    rfl
  simp only [candidate, padStart, List.length_append, List.length_replicate,
    String.length] at hlen
  have e : (toString n).data.length = n.repr.data.length := rfl
  rw [e] at hlen
  omega

theorem dropWhile_eq_self {α : Type} (p : α → Bool) (l : List α)
    (h : ∀ a ∈ l, p a = false) : l.dropWhile p = l := by
  cases l with
  | nil => rfl
  | cons a as => simp [List.dropWhile, h a (List.mem_cons_self a as)]

theorem trim_eq_self (s : String) (h : ∀ c ∈ s.data, isJSWhiteSpace c = false) :
    trim s = s := by
  unfold trim
  rw [dropWhile_eq_self _ _ h, dropWhile_eq_self _ _ (fun c hc => h c (List.mem_reverse.mp hc)),
    List.reverse_reverse]

theorem trim_candidate (n : Nat) : trim (candidate n) = candidate n := by
  apply trim_eq_self
  intro c hc
  obtain ⟨d, hd, rfl⟩ := candidate_digits n c hc
  exact digitChar_not_whiteSpace d hd


/-! ### Validation after other requests -/

theorem validate_of_find (codes : List CodeRecord) (now : Int) (code : String)
    (entry : CodeRecord) (htrim : trim code = code) (hne : code ≠ "")
    (hfind : codes.find? (fun c => c.code == code) = some entry) :
    validate codes now (some code) =
      if codeStatus now entry ≠ "active" then
        ⟨200, false, some (codeStatus now entry), none, some entry.note,
          some entry.expiresAt, some now⟩
      else
        ⟨200, true, none, some entry.code, some entry.note, some entry.expiresAt,
          some now⟩ := by
  simp only [validate, Option.getD_some, htrim, hne, if_false, hfind, orEmpty_eq]

theorem generate_sent_code (codes : List CodeRecord) (now : Int) (clock : Nat → Nat → Int)
    (created : Int) (rand : Nat → Nat)
    (fuel : Nat) (body : CreateBody) (resp : CreateResponse) (codes2 : List CodeRecord)
    (c : String) (h : generate codes now clock created rand fuel body = some (.sent resp, codes2))
    (hc : resp.code = some c) :
    ∃ k exp, c = candidate (rand k) ∧ genCode codes clock rand fuel = some c ∧
      resp.ok = true ∧ resp.expiresAt = some exp ∧
      codes2 = codes ++ [⟨c, noteText body.note, created, exp, false⟩] := by
  have hok : resp.ok = true := by
    by_contra hno
    obtain ⟨d, u, note⟩ := body
    unfold generate at h
    simp only at h
    split at h
    · simp only [Option.some.injEq, Prod.mk.injEq, Outcome.sent.injEq] at h
      rw [← h.1] at hc
      cases hc
    · split at h
      · simp only [Option.some.injEq, Prod.mk.injEq, Outcome.sent.injEq] at h
        rw [← h.1] at hc
        cases hc
      · split at h
        · simp at h
        · split at h
          · cases h
          · simp only [Option.some.injEq, Prod.mk.injEq, Outcome.sent.injEq] at h
            rw [← h.1] at hno
            exact hno rfl
  obtain ⟨q, c0, _, _, _, _, _, hc0, hresp, hcodes2⟩ :=
    generate_created codes now clock created rand fuel body resp codes2 h hok
  rw [hresp] at hc
  simp only [Option.some.injEq] at hc
  subst hc
  obtain ⟨k, _, hk, _⟩ := (genCode_eq_some codes clock rand fuel c0).mp hc0
  refine ⟨k, _, hk, hc0, hok, ?_, hcodes2⟩
  rw [hresp]

theorem revoke_then_validate_aux (codes : List CodeRecord) (code : String)
    (htrim : trim code = code) (hne : code ≠ "") (hex : ∃ c ∈ codes, c.code = code)
    (t : Int) :
    ∃ entry ∈ (revoke codes code).2,
      validate (revoke codes code).2 t (some code) =
        ⟨200, false, some "revoked", none, some entry.note, some entry.expiresAt, some t⟩ := by
  obtain ⟨pre, entry, post, hl, hpre, hentry⟩ := exists_code_split codes code hex
  subst hl
  rw [revoke_of_split code pre entry post hpre hentry]
  refine ⟨{ entry with revoked := true }, by simp, ?_⟩
  have hfind := find?_code_split code pre { entry with revoked := true } post hpre hentry
  rw [validate_of_find _ t code _ htrim hne hfind]
  have hst : codeStatus t { entry with revoked := true } = "revoked" := by
    simp [codeStatus]
  rw [hst]
  rfl

/-- C12: on every collection whose stored codes are codes made by the generator
(each is the candidate of some draw), and for every code, if a revoke request
for the code is answered `ok: true`, then a validate request for it on the
resulting collection is answered `ok: false` with reason `revoked` at every
instant, before or after the expiry of the record. This holds in particular, on
every starting collection, for a code that a create request has just returned:
revoking it is answered `ok: true` and validating it afterwards is answered
`revoked`. -/
theorem revoke_then_validate :
    (∀ (codes : List CodeRecord) (code : String),
      (∀ r ∈ codes, ∃ n : Nat, r.code = candidate n) →
      (revoke codes code).1.ok = true →
      ∀ t : Int, ∃ entry ∈ (revoke codes code).2,
        validate (revoke codes code).2 t (some code) =
          ⟨200, false, some "revoked", none, some entry.note, some entry.expiresAt,
            some t⟩) ∧
    (∀ (codes : List CodeRecord) (now : Int) (clock : Nat → Nat → Int) (created : Int)
        (rand : Nat → Nat) (fuel : Nat)
        (body : CreateBody) (resp : CreateResponse) (codes2 : List CodeRecord) (c : String),
      generate codes now clock created rand fuel body = some (.sent resp, codes2) →
      resp.code = some c →
      (revoke codes2 c).1 = ⟨200, true, none⟩ ∧
      ∀ t : Int, ∃ entry ∈ (revoke codes2 c).2,
        validate (revoke codes2 c).2 t (some c) =
          ⟨200, false, some "revoked", none, some entry.note, some entry.expiresAt,
            some t⟩) := by
  constructor
  · intro codes code hgenerated hok t
    have hex := revoke_ok_exists codes code hok
    obtain ⟨r, hr, hrcode⟩ := hex
    obtain ⟨n, hn⟩ := hgenerated r hr
    have hcode : code = candidate n := by rw [← hrcode, hn]
    have htrim : trim code = code := by
      rw [hcode]
      exact trim_candidate n
    have hne : code ≠ "" := by
      rw [hcode]
      exact candidate_ne_empty n
    exact revoke_then_validate_aux codes code htrim hne ⟨r, hr, hrcode⟩ t
  · intro codes now clock created rand fuel body resp codes2 c hgen hc
    obtain ⟨k, exp, hk, _, _, _, hcodes2⟩ :=
      generate_sent_code codes now clock created rand fuel body resp codes2 c hgen hc
    have hex : ∃ r ∈ codes2, r.code = c := by
      rw [hcodes2]
      exact ⟨⟨c, noteText body.note, created, exp, false⟩, by simp, rfl⟩
    have htrim : trim c = c := by
      rw [hk]
      exact trim_candidate (rand k)
    have hne : c ≠ "" := by
      rw [hk]
      exact candidate_ne_empty (rand k)
    refine ⟨?_, fun t => revoke_then_validate_aux codes2 c htrim hne hex t⟩
    obtain ⟨pre, entry, post, hl, hpre, hentry⟩ := exists_code_split codes2 c hex
    rw [hl, revoke_of_split c pre entry post hpre hentry]

/-- C12 on the scenario "create, revoke, validate": the code `000007` is issued
on a collection that already holds a revoked record with the same code, then
revoked, then validated after its expiry. -/
theorem revoke_then_validate_witness :
    generate [⟨"000007", "old", 0, 5, true⟩] 1000 (fun _ _ => 1000) 1001 (fun _ => 7) 1
        ⟨.fin 5, "minutes", .str "door"⟩
      = some (.sent ⟨200, true, none, some "000007", some 301000,
          some "/scanner.html?code=000007"⟩,
          [⟨"000007", "old", 0, 5, true⟩, ⟨"000007", "door", 1001, 301000, false⟩]) ∧
    (revoke [⟨"000007", "old", 0, 5, true⟩, ⟨"000007", "door", 1001, 301000, false⟩]
        "000007").1 = ⟨200, true, none⟩ ∧
    (∃ entry ∈ (revoke [⟨"000007", "door", 1001, 301000, false⟩] "000007").2,
      validate (revoke [⟨"000007", "door", 1001, 301000, false⟩] "000007").2 400000
          (some "000007") =
        ⟨200, false, some "revoked", none, some entry.note, some entry.expiresAt,
          some 400000⟩) :=
  ⟨by decide!,
   (revoke_then_validate.2 [⟨"000007", "old", 0, 5, true⟩] 1000 (fun _ _ => 1000) 1001
      (fun _ => 7) 1 ⟨.fin 5, "minutes", .str "door"⟩
      ⟨200, true, none, some "000007", some 301000, some "/scanner.html?code=000007"⟩
      [⟨"000007", "old", 0, 5, true⟩, ⟨"000007", "door", 1001, 301000, false⟩] "000007"
      (by decide!) rfl).1,
   revoke_then_validate.1 [⟨"000007", "door", 1001, 301000, false⟩] "000007"
      (fun r hr => ⟨7, by
        rw [List.mem_singleton] at hr
        rw [hr]
        decide⟩)
      (by decide) 400000⟩

/-! ### Remaining seconds and the list of codes -/

theorem floor_div_thousand (x : Int) : ⌊((x : Int) : ℚ) / 1000⌋ = x / 1000 := by
  have h := Rat.floor_intCast_div_natCast x 1000
  simpa using h

/-- C14: `remainingSeconds` returns `max(0, floor((expiresAt - now) / 1000))`.
It is never negative, it is `0` when `now ≥ expiresAt` or when fewer than 1000
ms remain, and otherwise it is the number of whole seconds left. -/
theorem remainingSeconds_spec (now : Int) (entry : CodeRecord) :
    remainingSeconds now entry = max 0 ((entry.expiresAt - now) / 1000) ∧
    0 ≤ remainingSeconds now entry ∧
    (now ≥ entry.expiresAt → remainingSeconds now entry = 0) ∧
    (entry.expiresAt - now < 1000 → remainingSeconds now entry = 0) ∧
    (1000 ≤ entry.expiresAt - now →
      1 ≤ remainingSeconds now entry ∧
      1000 * remainingSeconds now entry ≤ entry.expiresAt - now ∧
      entry.expiresAt - now < 1000 * (remainingSeconds now entry + 1)) := by
  have h : remainingSeconds now entry = max 0 ((entry.expiresAt - now) / 1000) := by
    simp only [remainingSeconds, floor_div_thousand]
  rw [h]
  refine ⟨rfl, ?_, ?_, ?_, ?_⟩
  · omega
  · intro h1
    omega
  · intro h1
    omega
  · intro h1
    omega

/-- C14 on a record that expires at instant `5000`: 2 whole seconds are left at
`2500`, none at `4001`, none at `7000`. -/
theorem remainingSeconds_spec_witness :
    remainingSeconds 2500 ⟨"000001", "", 0, 5000, false⟩ = 2 ∧
    remainingSeconds 4001 ⟨"000001", "", 0, 5000, false⟩ = 0 ∧
    remainingSeconds 7000 ⟨"000001", "", 0, 5000, false⟩ = 0 :=
  ⟨(remainingSeconds_spec 2500 ⟨"000001", "", 0, 5000, false⟩).1.trans (by decide),
   (remainingSeconds_spec 4001 ⟨"000001", "", 0, 5000, false⟩).2.2.2.1 (by decide),
   (remainingSeconds_spec 7000 ⟨"000001", "", 0, 5000, false⟩).2.2.1 (by decide)⟩

/-- C13: the list operation returns one entry for every stored record: the
entries are those of a permutation of the collection that is sorted by
`createdAt`, newest first, each entry with the code, note, `createdAt` and
`expiresAt` of its record, with `status = codeStatus(record)` and with
`remainingSec = remainingSeconds(record)`, both computed at `now`. The empty
collection gives the empty list, and the collection on disk stays as it is. -/
theorem list_spec (codes : List CodeRecord) (now : Int) :
    (∃ sorted : List CodeRecord, sorted.Perm codes ∧
      sorted.Pairwise (fun a b => b.createdAt ≤ a.createdAt) ∧
      list codes now = sorted.map (fun c =>
        ⟨c.code, c.note, c.createdAt, c.expiresAt, codeStatus now c,
          remainingSeconds now c⟩)) ∧
    (list codes now).length = codes.length ∧
    (list codes now).Pairwise (fun x y => y.createdAt ≤ x.createdAt) ∧
    list [] now = [] ∧
    serve codes (.list now) = some codes := by
  have hsorted : (codes.insertionSort newestFirst).Pairwise
      (fun a b => b.createdAt ≤ a.createdAt) :=
    List.sorted_insertionSort newestFirst codes
  refine ⟨⟨codes.insertionSort newestFirst, List.perm_insertionSort newestFirst codes,
    hsorted, ?_⟩, ?_, ?_, rfl, rfl⟩
  · simp only [list, orEmpty_eq]
  · simp only [list, List.length_map, List.length_insertionSort]
  · simp only [list, List.pairwise_map]
    exact hsorted

/-- C13 on three records created at instants 1, 3 and 2, listed at instant
`2500`. -/
theorem list_spec_witness :
    list [⟨"000001", "a", 1, 5000, false⟩, ⟨"000002", "b", 3, 2000, false⟩,
        ⟨"000003", "c", 2, 9000, true⟩] 2500
      = [⟨"000002", "b", 3, 2000, "expired", 0⟩, ⟨"000003", "c", 2, 9000, "revoked", 6⟩,
        ⟨"000001", "a", 1, 5000, "active", 2⟩] ∧
    (list [⟨"000001", "a", 1, 5000, false⟩, ⟨"000002", "b", 3, 2000, false⟩,
        ⟨"000003", "c", 2, 9000, true⟩] 2500).length = 3 :=
  ⟨by decide!,
   (list_spec [⟨"000001", "a", 1, 5000, false⟩, ⟨"000002", "b", 3, 2000, false⟩,
        ⟨"000003", "c", 2, 9000, true⟩] 2500).2.1⟩

/-! ### Records are kept -/

theorem keeps_refl (r : CodeRecord) : Keeps r r :=
  ⟨rfl, rfl, rfl, rfl, fun h => h⟩

theorem keeps_trans (a b c : CodeRecord) (hab : Keeps a b) (hbc : Keeps b c) : Keeps a c := by
  obtain ⟨h1, h2, h3, h4, h5⟩ := hab
  obtain ⟨k1, k2, k3, k4, k5⟩ := hbc
  exact ⟨k1.trans h1, k2.trans h2, k3.trans h3, k4.trans h4, fun h => k5 (h5 h)⟩

theorem extends_refl (s : List CodeRecord) : Extends s s :=
  fun _ r hr => ⟨r, hr, keeps_refl r⟩

theorem extends_trans (s s2 s3 : List CodeRecord) (h12 : Extends s s2) (h23 : Extends s2 s3) :
    Extends s s3 := by
  intro i r hr
  obtain ⟨r2, hr2, hk2⟩ := h12 i r hr
  obtain ⟨r3, hr3, hk3⟩ := h23 i r2 hr2
  exact ⟨r3, hr3, keeps_trans r r2 r3 hk2 hk3⟩

theorem extends_append (s extra : List CodeRecord) : Extends s (s ++ extra) := by
  intro i r hr
  refine ⟨r, ?_, keeps_refl r⟩
  have hi : i < s.length := by
    by_contra hge
    rw [List.getElem?_eq_none (not_lt.mp hge)] at hr
    cases hr
  rw [List.getElem?_append_left hi]
  exact hr

theorem extends_setRevoked (s : List CodeRecord) (idx : Nat) : Extends s (setRevoked s idx) := by
  intro i r hr
  rw [setRevoked_getElem?]
  by_cases hi : i = idx
  · rw [if_pos hi, hr]
    exact ⟨{ r with revoked := true }, rfl, rfl, rfl, rfl, rfl, fun _ => rfl⟩
  · rw [if_neg hi]
    exact ⟨r, hr, keeps_refl r⟩

theorem extends_length (s s2 : List CodeRecord) (h : Extends s s2) : s.length ≤ s2.length := by
  by_contra hlt
  have hpos : s2.length < s.length := not_le.mp hlt
  obtain ⟨r2, hr2, _⟩ := h s2.length (s[s2.length]) (List.getElem?_eq_getElem hpos)
  rw [List.getElem?_eq_none (le_refl _)] at hr2
  cases hr2

theorem serve_extends (s : List CodeRecord) (req : Request) (s2 : List CodeRecord)
    (h : serve s req = some s2) : Extends s s2 := by
  cases req with
  | list now =>
    simp only [serve, Option.some.injEq] at h
    rw [← h]
    exact extends_refl s
  | validate now query =>
    simp only [serve, Option.some.injEq] at h
    rw [← h]
    exact extends_refl s
  | revoke code =>
    simp only [serve, Option.some.injEq] at h
    rw [← h]
    unfold revoke
    split
    · exact extends_refl s
    · exact extends_setRevoked s _
  | create now clock created rand fuel body =>
    simp only [serve, Option.map_eq_some', Prod.exists, exists_eq_right] at h
    obtain ⟨out, hgen⟩ := h
    rcases generate_state s now clock created rand fuel body out s2 hgen with
      hsame | ⟨code, exp, _, hnew⟩
    · rw [hsame]
      exact extends_refl s
    · rw [hnew]
      exact extends_append s _

theorem serveAll_extends (reqs : List Request) :
    ∀ (s s2 : List CodeRecord), serveAll s reqs = some s2 → Extends s s2 := by
  induction reqs with
  | nil =>
    intro s s2 h
    simp only [serveAll, Option.some.injEq] at h
    rw [← h]
    exact extends_refl s
  | cons req rest ih =>
    intro s s2 h
    simp only [serveAll] at h
    cases hserve : serve s req with
    | none =>
      rw [hserve] at h
      cases h
    | some s1 =>
      rw [hserve] at h
      exact extends_trans s s1 s2 (serve_extends s req s1 hserve) (ih s1 s2 h)

/-- C15: the collection is append-only and revocation is monotone. For every
request (list, create, revoke or validate, whatever its answer) that takes the
collection `s` to `s2`, `s2` is at least as long as `s`, and at every index of
`s` the record of `s2` has the same code, note, `createdAt` and `expiresAt` as
the record of `s` and is revoked if that one was. The same holds after any
sequence of requests. -/
theorem serve_append_only (s : List CodeRecord) :
    (∀ (req : Request) (s2 : List CodeRecord), serve s req = some s2 →
      s.length ≤ s2.length ∧
      ∀ (i : Nat) (r : CodeRecord), s[i]? = some r →
        ∃ r2, s2[i]? = some r2 ∧ r2.code = r.code ∧ r2.note = r.note ∧
          r2.createdAt = r.createdAt ∧ r2.expiresAt = r.expiresAt ∧
          (r.revoked = true → r2.revoked = true)) ∧
    (∀ (reqs : List Request) (s2 : List CodeRecord), serveAll s reqs = some s2 →
      s.length ≤ s2.length ∧
      ∀ (i : Nat) (r : CodeRecord), s[i]? = some r →
        ∃ r2, s2[i]? = some r2 ∧ r2.code = r.code ∧ r2.note = r.note ∧
          r2.createdAt = r.createdAt ∧ r2.expiresAt = r.expiresAt ∧
          (r.revoked = true → r2.revoked = true)) := by
  constructor
  · intro req s2 h
    have hext := serve_extends s req s2 h
    exact ⟨extends_length s s2 hext, hext⟩
  · intro reqs s2 h
    have hext := serveAll_extends reqs s s2 h
    exact ⟨extends_length s s2 hext, hext⟩

/-- C15 on a revoke request: the record at index 0 keeps its fields and is
revoked afterwards. -/
theorem serve_append_only_witness :
    serve [⟨"000001", "a", 1, 6, false⟩] (.revoke "000001")
      = some [⟨"000001", "a", 1, 6, true⟩] ∧
    ([⟨"000001", "a", 1, 6, false⟩] : List CodeRecord).length
      ≤ ([⟨"000001", "a", 1, 6, true⟩] : List CodeRecord).length :=
  ⟨by decide,
   ((serve_append_only [⟨"000001", "a", 1, 6, false⟩]).1 (.revoke "000001")
      [⟨"000001", "a", 1, 6, true⟩] (by decide)).1⟩

/-! ### A rejected code stays rejected -/

theorem extends_find (code : String) :
    ∀ (s s2 : List CodeRecord) (entry : CodeRecord), Extends s s2 →
      s.find? (fun c => c.code == code) = some entry →
      ∃ entry2, s2.find? (fun c => c.code == code) = some entry2 ∧ Keeps entry entry2 := by
  intro s
  induction s with
  | nil =>
    intro s2 entry _ hfind
    cases hfind
  | cons a as ih =>
    intro s2 entry hext hfind
    obtain ⟨a2, ha2, hk⟩ := hext 0 a (List.getElem?_cons_zero)
    cases s2 with
    | nil => cases ha2
    | cons b bs =>
      simp only [List.getElem?_cons_zero, Option.some.injEq] at ha2
      subst ha2
      have htail : Extends as bs := by
        intro i r hr
        have h1 := hext (i + 1) r (by simpa using hr)
        simpa using h1
      by_cases hcode : a.code = code
      · have hb : b.code = code := hk.1.trans hcode
        have e1 : (a :: as).find? (fun c => c.code == code) = some a := by
          simp [List.find?, hcode]
        rw [e1] at hfind
        simp only [Option.some.injEq] at hfind
        subst hfind
        exact ⟨b, by simp [List.find?, hb], hk⟩
      · have hb : b.code ≠ code := fun h => hcode (hk.1.symm.trans h)
        have ha : (a.code == code) = false := by simpa using hcode
        have hb2 : (b.code == code) = false := by simpa using hb
        have e1 : (a :: as).find? (fun c => c.code == code)
            = as.find? (fun c => c.code == code) := by
          simp [List.find?, ha]
        rw [e1] at hfind
        obtain ⟨entry2, h2, hk2⟩ := ih bs entry htail hfind
        exact ⟨entry2, by simp [List.find?, hb2, h2], hk2⟩

theorem validate_rejected_elim (codes : List CodeRecord) (t : Int) (query : Option String)
    (hok : (validate codes t query).ok = false)
    (hreason : (validate codes t query).reason = some "expired" ∨
      (validate codes t query).reason = some "revoked") :
    trim (query.getD "") ≠ "" ∧
      ∃ entry, codes.find? (fun c => c.code == trim (query.getD "")) = some entry ∧
        (entry.revoked = true ∨ entry.expiresAt ≤ t) := by
  unfold validate at hok hreason
  simp only at hok hreason
  split at hreason
  · rcases hreason with h | h <;> simp at h
  · next hne =>
    refine ⟨hne, ?_⟩
    rw [if_neg hne] at hok
    split at hreason
    · rcases hreason with h | h <;> simp at h
    · next entry hfind =>
      refine ⟨entry, hfind, ?_⟩
      by_cases hact : codeStatus t entry = "active"
      · rw [hfind] at hok
        simp [hact] at hok
      · unfold codeStatus at hact
        simp only at hact
        by_cases hr : entry.revoked = true
        · exact Or.inl hr
        · rw [if_neg hr] at hact
          by_cases he : t ≥ entry.expiresAt
          · exact Or.inr he
          · rw [if_neg he] at hact
            exact absurd rfl hact

theorem validate_rejected_intro (codes : List CodeRecord) (t : Int) (query : Option String)
    (entry : CodeRecord) (hne : trim (query.getD "") ≠ "")
    (hfind : codes.find? (fun c => c.code == trim (query.getD "")) = some entry)
    (hst : entry.revoked = true ∨ entry.expiresAt ≤ t) :
    (validate codes t query).ok = false ∧
      ((validate codes t query).reason = some "expired" ∨
        (validate codes t query).reason = some "revoked") := by
  have hcases : codeStatus t entry = "revoked" ∨ codeStatus t entry = "expired" := by
    unfold codeStatus
    by_cases hr : entry.revoked = true
    · simp [hr]
    · rcases hst with h | h
      · exact absurd h hr
      · right
        simp [hr, h]
  have hact : codeStatus t entry ≠ "active" := by
    rcases hcases with h | h <;> rw [h] <;> decide
  simp only [validate, hne, if_false, hfind, hact, ne_eq, not_false_eq_true, if_true]
  refine ⟨trivial, ?_⟩
  rcases hcases with h | h
  · exact Or.inr (by rw [h])
  · exact Or.inl (by rw [h])

/-- C20: rejection is permanent. If a validate request for `c` at instant `t` is
answered `ok: false` with reason `expired` or `revoked`, then after any finite
sequence of list, create, revoke and validate requests, whatever their
instants, a validate request for `c` at any instant `t2 ≥ t` is again answered
`ok: false` with reason `expired` or `revoked`: never `ok: true`, never
code-not-found, also when a create request has issued the value `c` again. -/
theorem validate_rejection_permanent (codes : List CodeRecord) (t : Int)
    (c : Option String) (hok : (validate codes t c).ok = false)
    (hreason : (validate codes t c).reason = some "expired" ∨
      (validate codes t c).reason = some "revoked") :
    ∀ (reqs : List Request) (codes2 : List CodeRecord), serveAll codes reqs = some codes2 →
      ∀ t2 : Int, t ≤ t2 →
        (validate codes2 t2 c).ok = false ∧
        ((validate codes2 t2 c).reason = some "expired" ∨
          (validate codes2 t2 c).reason = some "revoked") := by
  intro reqs codes2 hrun t2 ht
  obtain ⟨hne, entry, hfind, hst⟩ := validate_rejected_elim codes t c hok hreason
  obtain ⟨entry2, hfind2, hk⟩ :=
    extends_find _ codes codes2 entry (serveAll_extends reqs codes codes2 hrun) hfind
  apply validate_rejected_intro codes2 t2 c entry2 hne hfind2
  rcases hst with h | h
  · exact Or.inl (hk.2.2.2.2 h)
  · right
    rw [hk.2.2.2.1]
    omega

/-- C20 on an expired code `000007` that a create request issues again: the
validate request after the create request is still answered `expired`. -/
theorem validate_rejection_permanent_witness :
    validate [⟨"000007", "old", 0, 5, false⟩] 1000 (some "000007")
      = ⟨200, false, some "expired", none, some "old", some 5, some 1000⟩ ∧
    serveAll [⟨"000007", "old", 0, 5, false⟩]
        [.create 1000 (fun _ _ => 1000) 1000 (fun _ => 7) 1 ⟨.fin 5, "minutes", .undefined⟩,
          .list 1001]
      = some [⟨"000007", "old", 0, 5, false⟩, ⟨"000007", "", 1000, 301000, false⟩] ∧
    (validate [⟨"000007", "old", 0, 5, false⟩, ⟨"000007", "", 1000, 301000, false⟩] 2000
        (some "000007")).ok = false :=
  ⟨by decide, by decide!,
   (validate_rejection_permanent [⟨"000007", "old", 0, 5, false⟩] 1000 (some "000007")
      (by decide) (by decide)
      [.create 1000 (fun _ _ => 1000) 1000 (fun _ => 7) 1 ⟨.fin 5, "minutes", .undefined⟩,
        .list 1001]
      [⟨"000007", "old", 0, 5, false⟩, ⟨"000007", "", 1000, 301000, false⟩] (by decide!)
      2000 (by decide)).1⟩


/-! ### Termination of code generation -/

theorem genCode_of_first (existing : List CodeRecord) (clock : Nat → Nat → Int)
    (rand : Nat → Nat) (k : Nat)
    (hk : collides existing (clock k) (candidate (rand k)) = false)
    (hmin : ∀ j, j < k → collides existing (clock j) (candidate (rand j)) = true)
    (fuel : Nat) (hfuel : k < fuel) :
    genCode existing clock rand fuel = some (candidate (rand k)) :=
  (genCode_eq_some existing clock rand fuel _).mpr ⟨k, hfuel, rfl, hk, hmin⟩

theorem exists_expiry_bound (existing : List CodeRecord) :
    ∃ T : Int, ∀ c ∈ existing, c.expiresAt ≤ T := by
  induction existing with
  | nil => exact ⟨0, fun c hc => absurd hc (List.not_mem_nil c)⟩
  | cons a rest ih =>
    obtain ⟨T, hT⟩ := ih
    refine ⟨max a.expiresAt T, ?_⟩
    intro c hc
    rcases List.mem_cons.mp hc with h | h
    · rw [h]
      exact le_max_left _ _
    · exact le_trans (hT c h) (le_max_right _ _)

theorem collides_false_of_late (existing : List CodeRecord) (readings : Nat → Int)
    (code : String) (T : Int) (hT : ∀ c ∈ existing, c.expiresAt ≤ T)
    (hlate : ∀ j, j < existing.length → T ≤ readings j) :
    collides existing readings code = false := by
  rw [collides_eq_false_iff]
  intro j c hj _
  right
  obtain ⟨hlen, hget⟩ := List.getElem?_eq_some.mp hj
  have hmem : c ∈ existing := by
    rw [← hget]
    exact List.getElem_mem hlen
  exact le_trans (hT c hmem) (hlate j hlen)

/-- C16: the loop of `genCode` ends and returns a code, for every existing
collection and every sequence of draws of the random source. The loop reads the
clock again at every check of a draw against a record, and the readings of a
running clock are not bounded: whatever instant `T` is named, the readings of
some draw are at `T` or later. Under that condition on the readings there is a
first draw `k` whose candidate collides with no record that is active at the
reading of its check; `genCode` returns that candidate after `k + 1` draws,
with any larger allowance of draws as well, and has not returned before. -/
theorem genCode_terminates (existing : List CodeRecord) (clock : Nat → Nat → Int)
    (rand : Nat → Nat)
    (hclock : ∀ T : Int, ∃ i, ∀ j, j < existing.length → T ≤ clock i j) :
    ∃ k code, code = candidate (rand k) ∧
      genCode existing clock rand (k + 1) = some code ∧
      (∀ fuel, k + 1 ≤ fuel → genCode existing clock rand fuel = some code) ∧
      (∀ fuel, fuel ≤ k → genCode existing clock rand fuel = none) := by
  obtain ⟨T, hT⟩ := exists_expiry_bound existing
  obtain ⟨i, hi⟩ := hclock T
  have hex : ∃ k, collides existing (clock k) (candidate (rand k)) = false :=
    ⟨i, collides_false_of_late existing (clock i) _ T hT hi⟩
  have hmin : ∀ j, j < Nat.find hex →
      collides existing (clock j) (candidate (rand j)) = true := by
    intro j hj
    have := Nat.find_min hex hj
    simpa using this
  refine ⟨Nat.find hex, candidate (rand (Nat.find hex)), rfl, ?_, ?_, ?_⟩
  · exact genCode_of_first existing clock rand _ (Nat.find_spec hex) hmin _
      (Nat.lt_succ_self _)
  · intro fuel hfuel
    exact genCode_of_first existing clock rand _ (Nat.find_spec hex) hmin fuel
      (by omega)
  · intro fuel hfuel
    cases hgen : genCode existing clock rand fuel with
    | none => rfl
    | some code =>
      obtain ⟨k, hk1, _, hk3, _⟩ := (genCode_eq_some existing clock rand fuel code).mp hgen
      have := hmin k (by omega)
      rw [hk3] at this
      cases this

/-- C16 on a collection in which `000007` is active until instant `9`, with a
random source that keeps drawing 7 and a clock that reads `i` during draw `i`:
the loop ends, and it does so at the draw whose reading is `9`. -/
theorem genCode_terminates_witness :
    (∃ k code, code = candidate ((fun _ => 7 : Nat → Nat) k) ∧
      genCode [⟨"000007", "", 0, 9, false⟩] (fun i _ => (i : Int)) (fun _ => 7) (k + 1)
        = some code ∧
      (∀ fuel, k + 1 ≤ fuel →
        genCode [⟨"000007", "", 0, 9, false⟩] (fun i _ => (i : Int)) (fun _ => 7) fuel
          = some code) ∧
      (∀ fuel, fuel ≤ k →
        genCode [⟨"000007", "", 0, 9, false⟩] (fun i _ => (i : Int)) (fun _ => 7) fuel
          = none)) ∧
    genCode [⟨"000007", "", 0, 9, false⟩] (fun i _ => (i : Int)) (fun _ => 7) 9 = none ∧
    genCode [⟨"000007", "", 0, 9, false⟩] (fun i _ => (i : Int)) (fun _ => 7) 10
      = some "000007" :=
  ⟨genCode_terminates [⟨"000007", "", 0, 9, false⟩] (fun i _ => (i : Int)) (fun _ => 7)
      (fun T => ⟨T.toNat, fun _ _ => Int.self_le_toNat T⟩),
   by decide, by decide⟩

/-! ### Codes issued one after another -/

theorem generateAll_cons_some (codes : List CodeRecord) (call : CreateCall)
    (rest : List CreateCall) (results : List (String × Int)) (final : List CodeRecord)
    (h : generateAll codes (call :: rest) = some (results, final)) :
    ∃ resp codes2 code exp results2,
      generate codes call.now call.clock call.created call.rand call.fuel call.body
        = some (.sent resp, codes2) ∧
      resp.ok = true ∧ resp.code = some code ∧ resp.expiresAt = some exp ∧
      generateAll codes2 rest = some (results2, final) ∧
      results = (code, exp) :: results2 := by
  unfold generateAll at h
  split at h
  · next st er code exp lk codes2 hgen =>
    split at h
    · next results2 final2 hrest =>
      simp only [Option.some.injEq, Prod.mk.injEq] at h
      refine ⟨_, codes2, code, exp, results2, hgen, rfl, rfl, rfl, ?_, h.1.symm⟩
      rw [hrest, h.2]
    · cases h
  · cases h

theorem generateAll_fresh (calls : List CreateCall) :
    ∀ (codes : List CodeRecord) (results : List (String × Int)) (final : List CodeRecord),
      generateAll codes calls = some (results, final) →
      ∀ r ∈ codes, r.revoked = false →
        (∀ call ∈ calls, ∀ i j, i < call.fuel → call.clock i j < r.expiresAt) →
        r.code ∉ results.map Prod.fst := by
  induction calls with
  | nil =>
    intro codes results final h r _ _ _
    simp only [generateAll, Option.some.injEq, Prod.mk.injEq] at h
    rw [← h.1]
    simp
  | cons call rest ih =>
    intro codes results final h r hr hrev hnow
    obtain ⟨resp, codes2, code, exp, results2, hgen, _, hcode, _, hrest, hres⟩ :=
      generateAll_cons_some codes call rest results final h
    obtain ⟨k, exp2, _, hgc, _, _, hcodes2⟩ :=
      generate_sent_code codes call.now call.clock call.created call.rand call.fuel
        call.body resp codes2 code hgen hcode
    have hne : r.code ≠ code := by
      intro heq
      obtain ⟨k0, hk0, hcol⟩ :=
        genCode_not_collides codes call.clock call.rand call.fuel code hgc
      obtain ⟨j, hj⟩ := List.getElem?_of_mem hr
      have : collides codes (call.clock k0) code = true :=
        (collides_iff _ _ _).mpr
          ⟨j, r, hj, heq, hrev, hnow call (List.mem_cons_self call rest) k0 j hk0⟩
      rw [this] at hcol
      cases hcol
    have hr2 : r ∈ codes2 := by
      rw [hcodes2]
      exact List.mem_append_left _ hr
    have hrest2 := ih codes2 results2 final hrest r hr2 hrev
      (fun c hc => hnow c (List.mem_cons_of_mem call hc))
    rw [hres]
    simp only [List.map_cons, List.mem_cons, not_or]
    exact ⟨hne, hrest2⟩

theorem generateAll_nodup (calls : List CreateCall) :
    ∀ (codes : List CodeRecord) (results : List (String × Int)) (final : List CodeRecord),
      generateAll codes calls = some (results, final) →
      (∀ call ∈ calls, ∀ i j, i < call.fuel → ∀ r ∈ results, call.clock i j < r.2) →
        (results.map Prod.fst).Nodup ∧ results.length = calls.length := by
  induction calls with
  | nil =>
    intro codes results final h _
    simp only [generateAll, Option.some.injEq, Prod.mk.injEq] at h
    rw [← h.1]
    simp
  | cons call rest ih =>
    intro codes results final h hnow
    obtain ⟨resp, codes2, code, exp, results2, hgen, _, hcode, hexp, hrest, hres⟩ :=
      generateAll_cons_some codes call rest results final h
    obtain ⟨k, exp2, _, _, _, hexp2, hcodes2⟩ :=
      generate_sent_code codes call.now call.clock call.created call.rand call.fuel
        call.body resp codes2 code hgen hcode
    have hee : exp2 = exp := by
      rw [hexp] at hexp2
      exact (Option.some.inj hexp2).symm
    subst hee
    subst hres
    have htail := ih codes2 results2 final hrest
      (fun c hc i j hi r hr =>
        hnow c (List.mem_cons_of_mem call hc) i j hi r (List.mem_cons_of_mem _ hr))
    have hfresh := generateAll_fresh rest codes2 results2 final hrest
      ⟨code, noteText call.body.note, call.created, exp2, false⟩
      (by rw [hcodes2]; simp) rfl
      (fun c hc i j hi => hnow c (List.mem_cons_of_mem call hc) i j hi (code, exp2)
        (List.mem_cons_self _ _))
    simp only [List.map_cons, List.nodup_cons, List.length_cons]
    exact ⟨⟨hfresh, htail.1⟩, by rw [htail.2]⟩

/-- C17: uniqueness under load. If N create requests are served one after
another on any starting collection, with no other request in between, every one
answered `ok: true`, and every one of them is served before the earliest
`expiresAt` among the N new records (every reading of the clock that the loop
of `genCode` takes in any of them, within the draws it is allowed, is before
it), then the N returned codes are
pairwise distinct. -/
theorem generateAll_distinct (codes : List CodeRecord) (calls : List CreateCall)
    (results : List (String × Int)) (final : List CodeRecord)
    (h : generateAll codes calls = some (results, final))
    (hwindow : ∀ call ∈ calls, ∀ i j, i < call.fuel → ∀ r ∈ results, call.clock i j < r.2) :
    results.length = calls.length ∧ (results.map Prod.fst).Nodup ∧
    ∀ (i j : Nat) (ci cj : String), i ≠ j → (results.map Prod.fst)[i]? = some ci →
      (results.map Prod.fst)[j]? = some cj → ci ≠ cj := by
  obtain ⟨hnodup, hlen⟩ := generateAll_nodup calls codes results final h hwindow
  refine ⟨hlen, hnodup, ?_⟩
  intro i j ci cj hij hi hj heq
  subst heq
  have hi2 : i < (results.map Prod.fst).length := by
    by_contra hge
    rw [List.getElem?_eq_none (not_lt.mp hge)] at hi
    cases hi
  have hj2 : j < (results.map Prod.fst).length := by
    by_contra hge
    rw [List.getElem?_eq_none (not_lt.mp hge)] at hj
    cases hj
  rw [List.getElem?_eq_getElem hi2] at hi
  rw [List.getElem?_eq_getElem hj2] at hj
  have := (List.Nodup.getElem_inj_iff hnodup).mp
    ((Option.some.inj hi).trans (Option.some.inj hj).symm)
  exact hij this

/-- C17 on two create requests whose random sources both draw 7 first: the
second request, whose clock reads 1001 and later, rejects `000007` and returns
`000008`. -/
theorem generateAll_distinct_witness :
    generateAll []
        [⟨1000, fun _ _ => 1000, 1000, fun _ => 7, 1, ⟨.fin 5, "minutes", .undefined⟩⟩,
         ⟨1001, fun i _ => 1001 + i, 1003, fun i => 7 + i, 2,
           ⟨.fin 5, "minutes", .undefined⟩⟩]
      = some ([("000007", 301000), ("000008", 301001)],
          [⟨"000007", "", 1000, 301000, false⟩, ⟨"000008", "", 1003, 301001, false⟩]) ∧
    ([("000007", 301000), ("000008", 301001)].map Prod.fst :
      List String).Nodup :=
  have hrun : generateAll []
        [⟨1000, fun _ _ => 1000, 1000, fun _ => 7, 1, ⟨.fin 5, "minutes", .undefined⟩⟩,
         ⟨1001, fun i _ => 1001 + i, 1003, fun i => 7 + i, 2,
           ⟨.fin 5, "minutes", .undefined⟩⟩]
      = some ([("000007", 301000), ("000008", 301001)],
          [⟨"000007", "", 1000, 301000, false⟩, ⟨"000008", "", 1003, 301001, false⟩]) := by
    decide!
  ⟨hrun, (generateAll_distinct [] _ _ _ hrun (by
    intro call hcall i j hi r hr
    simp only [List.mem_cons, List.mem_singleton, List.not_mem_nil, or_false] at hcall hr
    rcases hcall with rfl | rfl <;> rcases hr with rfl | rfl <;> simp at hi ⊢ <;> omega)).2.1⟩

/-! ### The store: loading and saving -/

theorem getField_written : ∀ (fields : JSONFields) (key : String),
    JSONValue.getField fields.written key = (JSONValue.getField fields key).map JSONValue.written
  | .nil, _ => rfl
  | .cons k v rest, key => by
    have ih := getField_written rest key
    simp only [JSONFields.written, JSONValue.getField, ih]
    cases JSONValue.getField rest key with
    | some w => rfl
    | none =>
      by_cases hk : k = key
      · simp [hk]
      · simp [hk]

theorem getField_replaceField : ∀ (fields : JSONFields) (key : String) (value : JSONValue),
    JSONValue.getField (JSONValue.replaceField fields key value) key =
      (JSONValue.getField fields key).map (fun _ => value)
  | .nil, _, _ => rfl
  | .cons k v rest, key, value => by
    have ih := getField_replaceField rest key value
    by_cases hk : k = key
    · simp only [JSONValue.replaceField, if_pos hk, JSONValue.getField, ih]
      cases JSONValue.getField rest key with
      | some w => rfl
      | none => rfl
    · simp only [JSONValue.replaceField, if_neg hk, JSONValue.getField, ih]
      cases JSONValue.getField rest key with
      | some w => rfl
      | none => rfl

theorem getField_appendField : ∀ (fields : JSONFields) (key : String) (value : JSONValue),
    JSONValue.getField (JSONValue.appendField fields key value) key = some value
  | .nil, key, value => by
    simp [JSONValue.appendField, JSONValue.getField]
  | .cons k v rest, key, value => by
    have ih := getField_appendField rest key value
    simp only [JSONValue.appendField, JSONValue.getField, ih]

theorem getField_setField (fields : JSONFields) (key : String) (value : JSONValue) :
    JSONValue.getField (JSONValue.setField fields key value) key = some value := by
  unfold JSONValue.setField
  cases hget : JSONValue.getField fields key with
  | some w =>
    simp only [getField_replaceField, hget, Option.map_some']
  | none =>
    simp only [getField_appendField]

theorem setField_written_ne (fields : JSONFields)
    (h : ∀ v, JSONValue.getField fields "codes" = some v → v.truthy = false) :
    (JSONValue.setField fields "codes" (.arr .nil)).written ≠ fields := by
  intro heq
  have hget : JSONValue.getField fields "codes" = some (.arr .nil) := by
    rw [← heq, getField_written, getField_setField]
    rfl
  have := h _ hget
  cases this

mutual

theorem jsonValue_written_eq_self_iff : ∀ v : JSONValue, v.written = v ↔ v.plain = true
  | .null => by simp [JSONValue.written, JSONValue.plain]
  | .bool b => by simp [JSONValue.written, JSONValue.plain]
  | .num (.finite q) => by simp [JSONValue.written, JSONValue.plain]
  | .num .negZero => by simp [JSONValue.written, JSONValue.plain]
  | .num .posInf => by simp [JSONValue.written, JSONValue.plain]
  | .num .negInf => by simp [JSONValue.written, JSONValue.plain]
  | .str s => by simp [JSONValue.written, JSONValue.plain]
  | .arr items => by
    simp [JSONValue.written, JSONValue.plain, jsonItems_written_eq_self_iff items]
  | .obj fields => by
    simp [JSONValue.written, JSONValue.plain, jsonFields_written_eq_self_iff fields]

theorem jsonItems_written_eq_self_iff : ∀ items : JSONItems,
    items.written = items ↔ items.plain = true
  | .nil => by simp [JSONItems.written, JSONItems.plain]
  | .cons head tail => by
    simp [JSONItems.written, JSONItems.plain, jsonValue_written_eq_self_iff head,
      jsonItems_written_eq_self_iff tail]

theorem jsonFields_written_eq_self_iff : ∀ fields : JSONFields,
    fields.written = fields ↔ fields.plain = true
  | .nil => by simp [JSONFields.written, JSONFields.plain]
  | .cons key value tail => by
    simp [JSONFields.written, JSONFields.plain, jsonValue_written_eq_self_iff value,
      jsonFields_written_eq_self_iff tail]

end

theorem saveData_loadData_of_loaded (json : JSONValue) (hnull : json ≠ .null)
    (hcodes : ∀ fields, json = .obj fields →
      ∃ v, JSONValue.getField fields "codes" = some v ∧ v.truthy = true) :
    saveData (loadData (.document json)) = .document json.written := by
  cases json with
  | null => exact absurd rfl hnull
  | bool b => rfl
  | num x => rfl
  | str t => rfl
  | arr items => rfl
  | obj fields =>
    obtain ⟨v, hv, ht⟩ := hcodes fields rfl
    simp only [saveData, loadData, hv, ht, if_true]

theorem saveData_loadData_of_falsy (fields : JSONFields)
    (hfalsy : ∀ v, JSONValue.getField fields "codes" = some v → v.truthy = false) :
    saveData (loadData (.document (.obj fields))) =
      .document (.obj (JSONValue.setField fields "codes" (.arr .nil)).written) := by
  cases hget : JSONValue.getField fields "codes" with
  | none => simp only [saveData, loadData, hget, JSONValue.written]
  | some v =>
    simp only [saveData, loadData, hget, hfalsy v hget, Bool.false_eq_true, if_false,
      JSONValue.written]

/-- C18 as stated fails: when the file holds unparseable text, the object `{}`
or `null`, saving what `loadData` returns writes the document `{ codes: [] }`,
which is not what the file held; and when the file holds
`{"codes": [{"n": 1e999}]}`, whose number parses to `Infinity`, it writes `null`
in the place of the number. -/
theorem saveData_loadData_changes :
    saveData (loadData (.unparseable "oops"))
      = .document (.obj (.cons "codes" (.arr .nil) .nil)) ∧
    saveData (loadData (.unparseable "oops")) ≠ .unparseable "oops" ∧
    saveData (loadData (.document (.obj .nil)))
      = .document (.obj (.cons "codes" (.arr .nil) .nil)) ∧
    saveData (loadData (.document (.obj .nil))) ≠ .document (.obj .nil) ∧
    saveData (loadData (.document .null)) ≠ .document .null ∧
    JSONNumber.ofLiteral false (10 ^ 999) = .posInf ∧
    saveData (loadData (.document (.obj (.cons "codes"
        (.arr (.cons (.obj (.cons "n" (.num (JSONNumber.ofLiteral false (10 ^ 999))) .nil))
          .nil)) .nil))))
      = .document (.obj (.cons "codes"
        (.arr (.cons (.obj (.cons "n" .null .nil)) .nil)) .nil)) ∧
    saveData (loadData (.document (.obj (.cons "codes"
        (.arr (.cons (.obj (.cons "n" (.num .posInf) .nil)) .nil)) .nil))))
      ≠ .document (.obj (.cons "codes"
        (.arr (.cons (.obj (.cons "n" (.num .posInf) .nil)) .nil)) .nil)) := by
  have hlit : JSONNumber.ofLiteral false (10 ^ 999) = .posInf := by decide!
  refine ⟨rfl, ?_, rfl, ?_, ?_, hlit, ?_, ?_⟩
  · intro h
    cases h
  · intro h
    cases h
  · intro h
    cases h
  · rw [hlit]
    rfl
  · intro h
    cases h

/-- C18, amended: saving what `loadData` returns leaves the persisted document
structurally as it was exactly when the file parses to a value that is not
`null`, holds no number that is an infinity or the negative zero and, if it is
an object, has a truthy `codes` field; every document that the server writes is
of this kind. Otherwise the document changes: unparseable text and `null` are
replaced by the document `{ codes: [] }`, an object whose `codes` field is
missing or falsy is written back with `codes` set to `[]`, and in every
document an infinity is written back as `null` and the negative zero as `0`. -/
theorem saveData_loadData (s : PersistedState) :
    (saveData (loadData s) = s ↔
      ∃ json, s = .document json ∧ json ≠ .null ∧ json.plain = true ∧
        ∀ fields, json = .obj fields →
          ∃ v, JSONValue.getField fields "codes" = some v ∧ v.truthy = true) ∧
    (∀ text, s = .unparseable text →
      saveData (loadData s) = .document (.obj (.cons "codes" (.arr .nil) .nil))) ∧
    (s = .document .null →
      saveData (loadData s) = .document (.obj (.cons "codes" (.arr .nil) .nil))) ∧
    (∀ fields, s = .document (.obj fields) →
      (∀ v, JSONValue.getField fields "codes" = some v → v.truthy = false) →
      saveData (loadData s) =
        .document (.obj (JSONValue.setField fields "codes" (.arr .nil)).written)) ∧
    (∀ json, s = .document json → json ≠ .null →
      (∀ fields, json = .obj fields →
        ∃ v, JSONValue.getField fields "codes" = some v ∧ v.truthy = true) →
      saveData (loadData s) = .document json.written) := by
  refine ⟨?_, ?_, ?_, ?_, ?_⟩
  · cases s with
    | unparseable text =>
      constructor
      · intro h
        cases h
      · rintro ⟨json, h, _⟩
        cases h
    | document json =>
      constructor
      · intro h
        have hnull : json ≠ .null := by
          intro hj
          subst hj
          cases h
        have hcodes : ∀ fields, json = .obj fields →
            ∃ v, JSONValue.getField fields "codes" = some v ∧ v.truthy = true := by
          intro fields hj
          subst hj
          by_contra hno
          have hfalsy : ∀ v, JSONValue.getField fields "codes" = some v →
              v.truthy = false := by
            intro v hv
            cases ht : v.truthy with
            | false => rfl
            | true => exact absurd ⟨v, hv, ht⟩ hno
          rw [saveData_loadData_of_falsy fields hfalsy] at h
          simp only [PersistedState.document.injEq, JSONValue.obj.injEq] at h
          exact setField_written_ne fields hfalsy h
        rw [saveData_loadData_of_loaded json hnull hcodes] at h
        simp only [PersistedState.document.injEq] at h
        exact ⟨json, rfl, hnull, (jsonValue_written_eq_self_iff json).mp h, hcodes⟩
      · rintro ⟨json2, h, hnull, hplain, hcodes⟩
        simp only [PersistedState.document.injEq] at h
        subst h
        rw [saveData_loadData_of_loaded json hnull hcodes,
          (jsonValue_written_eq_self_iff json).mpr hplain]
  · intro text hs
    subst hs
    rfl
  · intro hs
    subst hs
    rfl
  · intro fields hs hfalsy
    subst hs
    exact saveData_loadData_of_falsy fields hfalsy
  · intro json hs hnull hcodes
    subst hs
    exact saveData_loadData_of_loaded json hnull hcodes

/-- C18, amended, on a document with one record in `codes`: saving what
`loadData` returns leaves it as it was. -/
theorem saveData_loadData_witness :
    saveData (loadData (.document (.obj (.cons "codes"
        (.arr (.cons (.obj (.cons "code" (.str "000007") .nil)) .nil)) .nil))))
      = .document (.obj (.cons "codes"
        (.arr (.cons (.obj (.cons "code" (.str "000007") .nil)) .nil)) .nil)) :=
  (saveData_loadData (.document (.obj (.cons "codes"
      (.arr (.cons (.obj (.cons "code" (.str "000007") .nil)) .nil)) .nil)))).1.mpr
    ⟨_, rfl, JSONValue.noConfusion, rfl,
      fun _ h => JSONValue.obj.inj h ▸ ⟨_, rfl, rfl⟩⟩

/-! ### Validating a code that was just issued -/

theorem find?_append_of_none (code : String) (codes : List CodeRecord) (r : CodeRecord)
    (hnone : ∀ c ∈ codes, c.code ≠ code) (hr : r.code = code) :
    (codes ++ [r]).find? (fun c => c.code == code) = some r :=
  find?_code_split code codes r [] hnone hr

/-- C19 as stated fails: on a collection that holds a revoked record with the
code `000007`, a create request served at instant `1000` whose first draw is 7
returns `000007` with expiry `301000`; a validate request for `000007` at the
same instant is answered `ok: false` with reason `revoked`, from the older
record. -/
theorem validate_fresh_code_rejected :
    generate [⟨"000007", "old", 0, 5, true⟩] 1000 (fun _ _ => 1000) 1000 (fun _ => 7) 1
        ⟨.fin 5, "minutes", .undefined⟩
      = some (.sent ⟨200, true, none, some "000007", some 301000,
          some "/scanner.html?code=000007"⟩,
          [⟨"000007", "old", 0, 5, true⟩, ⟨"000007", "", 1000, 301000, false⟩]) ∧
    validate [⟨"000007", "old", 0, 5, true⟩, ⟨"000007", "", 1000, 301000, false⟩] 1000
        (some "000007")
      = ⟨200, false, some "revoked", none, some "old", some 5, some 1000⟩ := by
  decide!

/-- C19, amended: when a create request served at `now` returns the code `c`
with expiry `expiresAt` and no record of the starting collection has the code
`c`, a validate request for `c` on the resulting collection at every instant
`t` with `now ≤ t < expiresAt` is answered `ok: true` with that `expiresAt`.
When a record of the starting collection has the code `c`, the validate request
is answered `ok: false` at every instant `t` that is not before the readings of
the clock taken by the loop of `genCode`, within the draws it is allowed. -/
theorem validate_fresh_code (codes : List CodeRecord) (now : Int)
    (clock : Nat → Nat → Int) (created : Int) (rand : Nat → Nat)
    (fuel : Nat) (body : CreateBody) (resp : CreateResponse) (codes2 : List CodeRecord)
    (c : String) (expiresAt : Int)
    (hgen : generate codes now clock created rand fuel body = some (.sent resp, codes2))
    (hc : resp.code = some c) (hexp : resp.expiresAt = some expiresAt) :
    ((∀ r ∈ codes, r.code ≠ c) → ∀ t : Int, now ≤ t → t < expiresAt →
      validate codes2 t (some c) =
        ⟨200, true, none, some c, some (noteText body.note), some expiresAt, some t⟩) ∧
    ((∃ r ∈ codes, r.code = c) →
      ∀ t : Int, (∀ i j, i < fuel → j < codes.length → clock i j ≤ t) →
        (validate codes2 t (some c)).ok = false) := by
  obtain ⟨k, exp, hk, hgc, _, hexp2, hcodes2⟩ :=
    generate_sent_code codes now clock created rand fuel body resp codes2 c hgen hc
  have hee : exp = expiresAt := by
    rw [hexp] at hexp2
    exact (Option.some.inj hexp2).symm
  subst hee
  have htrim : trim c = c := by
    rw [hk]
    exact trim_candidate (rand k)
  have hne : c ≠ "" := by
    rw [hk]
    exact candidate_ne_empty (rand k)
  constructor
  · intro hnone t _ hlt
    have hfind : codes2.find? (fun r => r.code == c)
        = some ⟨c, noteText body.note, created, exp, false⟩ := by
      rw [hcodes2]
      exact find?_append_of_none c codes _ hnone rfl
    rw [validate_of_find codes2 t c _ htrim hne hfind]
    have hst : codeStatus t ⟨c, noteText body.note, created, exp, false⟩ = "active" := by
      simp [codeStatus, not_le.mpr hlt]
    rw [hst]
    rfl
  · intro hex t ht
    obtain ⟨pre, entry, post, hl, hpre, hentry⟩ := exists_code_split codes c hex
    have hfind : codes2.find? (fun r => r.code == c) = some entry := by
      rw [hcodes2, hl, List.append_assoc]
      exact find?_code_split c pre entry _ hpre hentry
    have hmem : entry ∈ codes := by
      rw [hl]
      simp
    have hdead : entry.revoked = true ∨ entry.expiresAt ≤ t :=
      genCode_not_active codes clock rand fuel c t hgc ht entry hmem hentry
    have hq : trim ((some c : Option String).getD "") = c := htrim
    exact (validate_rejected_intro codes2 t (some c) entry (by rw [hq]; exact hne)
      (by rw [hq]; exact hfind) hdead).1

/-- C19, amended, on the empty collection: the code `000007` issued at instant
`1000` for 5 minutes is accepted at instant `2000`. -/
theorem validate_fresh_code_witness :
    generate [] 1000 (fun _ _ => 1000) 1001 (fun _ => 7) 1 ⟨.fin 5, "minutes", .str "door"⟩
      = some (.sent ⟨200, true, none, some "000007", some 301000,
          some "/scanner.html?code=000007"⟩, [⟨"000007", "door", 1001, 301000, false⟩]) ∧
    validate [⟨"000007", "door", 1001, 301000, false⟩] 2000 (some "000007")
      = ⟨200, true, none, some "000007", some (noteText (.str "door")), some 301000,
          some 2000⟩ :=
  ⟨by decide!,
   (validate_fresh_code [] 1000 (fun _ _ => 1000) 1001 (fun _ => 7) 1
      ⟨.fin 5, "minutes", .str "door"⟩
      ⟨200, true, none, some "000007", some 301000, some "/scanner.html?code=000007"⟩
      [⟨"000007", "door", 1001, 301000, false⟩] "000007" 301000 (by decide!) rfl rfl).1
      (by simp) 2000 (by decide) (by decide)⟩

end MG8
